import Mathlib

/-!
# Verification of the family-tree relationship graph engine

Shallow embedding of the Relationship Graph Consistency Engine
(`backend/src/services/relationship.service.ts` — the version with the
derived-link propagator and permission checks, `backend/src/services/person.service.ts`)
and of the Hierarchical Layout Engine (`frontend/src/stores/treeStore.ts`).

Modelling conventions:
* Database-generated opaque string ids (cuid) are modelled as naturals issued
  by per-table counters carried in the store state.
* `prisma` queries are modelled as pure scans over the stored list of rows,
  in insertion order; `create` appends a row at the end of the list.
* JavaScript `Map`/`Set` are modelled as association lists / lists with
  first-occurrence deduplication, which matches their insertion-order
  iteration semantics.
* The recursive traversals of the source (`getAllDescendants`, BFS in
  `collectDescendants`, union-find `find`, memoised `getDepth`) are embedded
  with an explicit fuel argument large enough to cover every terminating run
  of the source; path compression in `find` is omitted because it does not
  change the returned root.
-/

namespace FamilyTree

inductive RelType where
  | PARENT
  | SPOUSE
  | SIBLING
deriving DecidableEq, Repr

/-- A `Person` row: opaque id, names, and the creating user (`createdById`). -/
structure Person where
  id : Nat
  firstName : String
  lastName : String
  createdById : String
deriving DecidableEq, Repr

/-- A `Relationship` row.  For `PARENT`, `person1Id` is the parent of `person2Id`. -/
structure Relationship where
  id : Nat
  person1Id : Nat
  person2Id : Nat
  relationshipType : RelType
  createdById : String
deriving DecidableEq, Repr

/-- The persistence store: the two tables, plus the id counters of the store.
(BranchOwnership rows and audit logs are not modelled: no claim touches them.) -/
structure DB where
  persons : List Person
  relationships : List Relationship
  personCounter : Nat
  relCounter : Nat
deriving DecidableEq, Repr

/-- `prisma.person.findUnique({ where: { id } })`. -/
def findPerson (db : DB) (pid : Nat) : Option Person :=
  db.persons.find? (fun p => p.id = pid)

/-- `getParentIds` of `relationship.service.ts`: person1Ids of PARENT rows whose
person2 is the child. -/
def getParentIds (rels : List Relationship) (childId : Nat) : List Nat :=
  (rels.filter (fun r => r.person2Id = childId ∧ r.relationshipType = RelType.PARENT)).map
    (fun r => r.person1Id)

/-- `getChildIds`: person2Ids of PARENT rows whose person1 is the parent. -/
def getChildIds (rels : List Relationship) (parentId : Nat) : List Nat :=
  (rels.filter (fun r => r.person1Id = parentId ∧ r.relationshipType = RelType.PARENT)).map
    (fun r => r.person2Id)

/-- `getSpouseIds`: the opposite endpoint of every SPOUSE row touching `personId`. -/
def getSpouseIds (rels : List Relationship) (personId : Nat) : List Nat :=
  ((rels.filter (fun r => r.relationshipType = RelType.SPOUSE ∧
      (r.person1Id = personId ∨ r.person2Id = personId))).map
    (fun r => if r.person1Id = personId then r.person2Id else r.person1Id))

/-- The `findFirst` uniqueness query of `createRelationship`: any row between the
unordered pair, regardless of type. -/
def findAnyRelBetween (rels : List Relationship) (a b : Nat) : Option Relationship :=
  rels.find? (fun r => (r.person1Id = a ∧ r.person2Id = b) ∨ (r.person1Id = b ∧ r.person2Id = a))

/-- The `findFirst` existence query of `createParentLinkIfMissing`: a PARENT row
between the unordered pair, in either direction. -/
def findParentRelBetween (rels : List Relationship) (a b : Nat) : Option Relationship :=
  rels.find? (fun r => r.relationshipType = RelType.PARENT ∧
    ((r.person1Id = a ∧ r.person2Id = b) ∨ (r.person1Id = b ∧ r.person2Id = a)))

/-- The PARENT rows leaving `pid` (children query of `getAllDescendants`). -/
def childRelsOf (rels : List Relationship) (pid : Nat) : List Relationship :=
  rels.filter (fun r => r.person1Id = pid ∧ r.relationshipType = RelType.PARENT)

/-- State of the `getAllDescendants` traversal: the `visited` set and the
`descendants` accumulator of the source. -/
structure DfsSt where
  visited : List Nat
  descendants : List Nat
deriving DecidableEq, Repr

/-- The recursive `findDescendants` closure of `getAllDescendants`: skip visited
nodes, otherwise mark visited and, for each PARENT row leaving the node, push the
child and recurse into it.  `fuel` bounds the recursion depth; the visited set
grows at each level, so `rels.length + 1` fuel covers every run of the source. -/
def findDescendants (rels : List Relationship) : Nat → Nat → DfsSt → DfsSt
  | 0, _, st => st
  | fuel + 1, pid, st =>
    if pid ∈ st.visited then st
    else
      (childRelsOf rels pid).foldl
        (fun acc r =>
          findDescendants rels fuel r.person2Id
            { acc with descendants := acc.descendants ++ [r.person2Id] })
        { st with visited := pid :: st.visited }

/-- `getAllDescendants(personId)`: all ids pushed by the traversal. -/
def getAllDescendants (rels : List Relationship) (personId : Nat) : List Nat :=
  (findDescendants rels (rels.length + 1) personId ⟨[], []⟩).descendants

/-- `checkForCycle(parentId, childId)`: the proposed parent already being a
descendant of the proposed child constitutes a cycle. -/
def checkForCycle (rels : List Relationship) (parentId childId : Nat) : Bool :=
  decide (parentId ∈ getAllDescendants rels childId)

/-! ## Reachability over PARENT edges (specification side) -/
/-- `ParentEdge rels a b`: some stored PARENT row has parent `a` and child `b`. -/
def ParentEdge (rels : List Relationship) (a b : Nat) : Prop :=
  ∃ r ∈ rels, r.relationshipType = RelType.PARENT ∧ r.person1Id = a ∧ r.person2Id = b

instance (rels : List Relationship) (a b : Nat) : Decidable (ParentEdge rels a b) := by
  unfold ParentEdge
  infer_instance

/-- Strict descendant relation: at least one PARENT step. -/
def Reaches (rels : List Relationship) (a b : Nat) : Prop :=
  Relation.TransGen (ParentEdge rels) a b

/-- Acyclicity of the PARENT sub-graph. -/
def AcyclicParent (rels : List Relationship) : Prop :=
  ∀ x, ¬ Reaches rels x x

/-! ## Correctness of the `getAllDescendants` traversal -/
/-- Pointwise containment of traversal states. -/
def DfsLe (s t : DfsSt) : Prop :=
  (∀ x, x ∈ s.visited → x ∈ t.visited) ∧ (∀ x, x ∈ s.descendants → x ∈ t.descendants)

/-- A node is fully processed in a state: every PARENT row leaving it has its
child both pushed and visited. -/
def Processed (rels : List Relationship) (st : DfsSt) (v : Nat) : Prop :=
  ∀ r ∈ rels, r.relationshipType = RelType.PARENT → r.person1Id = v →
    r.person2Id ∈ st.descendants ∧ r.person2Id ∈ st.visited

/-- The full postcondition of `findDescendants` at a given fuel budget. -/
def DfsSpec (rels : List Relationship) (U : Finset Nat) (fuel : Nat) : Prop :=
  ∀ (pid : Nat) (st : DfsSt), pid ∈ U →
    (U \ st.visited.toFinset).card ≤ fuel →
    DfsLe st (findDescendants rels fuel pid st) ∧
    pid ∈ (findDescendants rels fuel pid st).visited ∧
    (∀ v ∈ (findDescendants rels fuel pid st).visited,
      v ∈ st.visited ∨ Processed rels (findDescendants rels fuel pid st) v)

/-! ## The Relationship Mutation Service -/
inductive CreateError where
  | notFound
  | permissionDenied
  | selfRelationship
  | duplicate
  | cycle
deriving DecidableEq, Repr

inductive DeleteError where
  | notFound
  | permissionDenied
deriving DecidableEq, Repr

/-- `prisma.relationship.create`: append a row with a fresh store-issued id. -/
def insertRel (db : DB) (p1 p2 : Nat) (t : RelType) (uid : String) : DB × Relationship :=
  let r : Relationship := ⟨db.relCounter, p1, p2, t, uid⟩
  ({ db with relationships := db.relationships ++ [r], relCounter := db.relCounter + 1 }, r)

/-- `createParentLinkIfMissing` of `relationship.service.ts`: skip on
self-link; for non-admins skip unless the actor created BOTH persons; skip if a
PARENT row already exists between the pair in either direction; skip if the link
would create a cycle; otherwise create the derived PARENT row. -/
def createParentLinkIfMissing (db : DB) (parentId childId : Nat) (userId : String)
    (isAdmin : Bool) : DB :=
  if parentId = childId then db
  else
    let permitted : Bool :=
      if isAdmin then true
      else
        match findPerson db parentId, findPerson db childId with
        | some parent, some child =>
            decide (parent.createdById = userId) && decide (child.createdById = userId)
        | _, _ => false
    if permitted = false then db
    else if (findParentRelBetween db.relationships parentId childId).isSome then db
    else if checkForCycle db.relationships parentId childId then db
    else (insertRel db parentId childId RelType.PARENT userId).1

/-- The derived-link propagation run by `createRelationship` after persisting a
row of the given type between `p1` and `p2` (inlined per-type blocks in the
source; factored here since `normalizeRelationships` re-runs the same blocks). -/
def propagateRel (db : DB) (p1 p2 : Nat) (t : RelType) (userId : String)
    (isAdmin : Bool) : DB :=
  match t with
  | RelType.SIBLING =>
    let parentIds := (getParentIds db.relationships p1 ++ getParentIds db.relationships p2).eraseDups
    parentIds.foldl
      (fun acc parentId =>
        createParentLinkIfMissing
          (createParentLinkIfMissing acc parentId p1 userId isAdmin)
          parentId p2 userId isAdmin)
      db
  | RelType.SPOUSE =>
    let childrenOfPerson1 := getChildIds db.relationships p1
    let childrenOfPerson2 := getChildIds db.relationships p2
    let db1 := childrenOfPerson1.foldl
      (fun acc childId => createParentLinkIfMissing acc p2 childId userId isAdmin) db
    childrenOfPerson2.foldl
      (fun acc childId => createParentLinkIfMissing acc p1 childId userId isAdmin) db1
  | RelType.PARENT =>
    (getSpouseIds db.relationships p1).foldl
      (fun acc spouseId => createParentLinkIfMissing acc spouseId p2 userId isAdmin) db

structure CreateRelationshipDto where
  person1Id : Nat
  person2Id : Nat
  relationshipType : RelType
deriving DecidableEq, Repr

/-- `createRelationship` of `relationship.service.ts` (the propagator version):
existence of both persons, then permission (non-admins must have created at
least one of the two persons), then the self check, then pair uniqueness
regardless of type, then — for PARENT — the cycle check; persist; propagate. -/
def createRelationship (db : DB) (data : CreateRelationshipDto) (userId : String)
    (isAdmin : Bool) : Except CreateError (DB × Relationship) :=
  match findPerson db data.person1Id with
  | none => Except.error CreateError.notFound
  | some person1 =>
    match findPerson db data.person2Id with
    | none => Except.error CreateError.notFound
    | some person2 =>
      if ¬ isAdmin ∧ person1.createdById ≠ userId ∧ person2.createdById ≠ userId then
        Except.error CreateError.permissionDenied
      else if data.person1Id = data.person2Id then
        Except.error CreateError.selfRelationship
      else if (findAnyRelBetween db.relationships data.person1Id data.person2Id).isSome then
        Except.error CreateError.duplicate
      else if data.relationshipType = RelType.PARENT ∧
          checkForCycle db.relationships data.person1Id data.person2Id then
        Except.error CreateError.cycle
      else
        let created := insertRel db data.person1Id data.person2Id data.relationshipType userId
        Except.ok
          (propagateRel created.1 data.person1Id data.person2Id data.relationshipType userId
            isAdmin,
          created.2)

/-- `deleteRelationship`: not-found check, then creator-or-admin permission,
then hard delete of the row. -/
def deleteRelationship (db : DB) (id : Nat) (userId : String) (isAdmin : Bool) :
    Except DeleteError DB :=
  match db.relationships.find? (fun r => r.id = id) with
  | none => Except.error DeleteError.notFound
  | some relationship =>
    if ¬ isAdmin ∧ relationship.createdById ≠ userId then
      Except.error DeleteError.permissionDenied
    else
      Except.ok { db with relationships := db.relationships.filter (fun r => ¬ r.id = id) }

/-! ## Person creation and the Bulk Import Merger -/
/-- `prisma.person.create`: append a row with a fresh store-issued id.
(The accompanying BranchOwnership row is not modelled.) -/
def insertPerson (db : DB) (firstName lastName : String) (uid : String) : DB × Person :=
  let p : Person := ⟨db.personCounter, firstName, lastName, uid⟩
  ({ db with persons := db.persons ++ [p], personCounter := db.personCounter + 1 }, p)

/-- `createPerson` of `person.service.ts`. -/
def createPerson (db : DB) (firstName lastName : String) (userId : String) : DB × Person :=
  insertPerson db firstName lastName userId

/-- The UX-facing bulk vocabulary: `PARENT` means the entry's person is the
child of the related person, `CHILD` the inverse. -/
inductive BulkRelType where
  | PARENT
  | CHILD
  | SPOUSE
  | SIBLING
deriving DecidableEq, Repr

/-- One bulk-import entry.  The three relation fields of the source are
optional; JS-falsy empty strings are modelled as `none`. -/
structure BulkImportEntry where
  firstName : String
  lastName : String
  relatedFirstName : Option String
  relatedLastName : Option String
  relationshipType : Option BulkRelType
deriving DecidableEq, Repr

/-- JS `toLowerCase`, modelled character-wise over the string's characters
(core `String.toLower` is defined by well-founded recursion on byte positions
and does not reduce definitionally, so it cannot be used here). -/
def lowerCase (s : String) : String := ⟨s.data.map Char.toLower⟩

/-- The case-insensitive name key `first.toLowerCase() + "_" + last.toLowerCase()`. -/
def nameKey (firstName lastName : String) : String :=
  lowerCase firstName ++ "_" ++ lowerCase lastName

/-- JS `Map.get`: the most recent binding of the key. -/
def mapGet (m : List (String × Nat)) (k : String) : Option Nat :=
  (m.find? (fun e => e.1 = k)).map (fun e => e.2)

/-- JS `Map.set`, as most-recent-binding-first association list. -/
def mapSet (m : List (String × Nat)) (k : String) (v : Nat) : List (String × Nat) :=
  (k, v) :: m

/-- The initial name index of the batch, built over all existing persons. -/
def buildNameMap (persons : List Person) : List (String × Nat) :=
  persons.foldl (fun m p => mapSet m (nameKey p.firstName p.lastName) p.id) []

/-- The transaction-local `createParentLinkIfMissing` of
`bulkCreatePersonsWithRelationships` in `person.service.ts`: only the self and
the PARENT-pair-existence checks — no permission check and NO cycle check —
and it increments `relationshipsCreated` when it inserts. -/
def bulkCreateParentLinkIfMissing (db : DB) (parentId childId : Nat) (userId : String)
    (count : Nat) : DB × Nat :=
  if parentId = childId then (db, count)
  else if (findParentRelBetween db.relationships parentId childId).isSome then (db, count)
  else ((insertRel db parentId childId RelType.PARENT userId).1, count + 1)

/-- Accumulated state of one bulk batch. -/
structure BulkSt where
  db : DB
  createdPersons : List Person
  nameMap : List (String × Nat)
  relationshipsCreated : Nat
deriving DecidableEq, Repr

/-- First half of one bulk entry: reuse the person when the normalized name is
already indexed, otherwise create it (recording it in the created list and the
index); returns the resolved id. -/
def bulkResolvePerson (userId : String) (st : BulkSt) (entry : BulkImportEntry) :
    BulkSt × Nat :=
  let newPersonKey := nameKey entry.firstName entry.lastName
  match mapGet st.nameMap newPersonKey with
  | some pid => (st, pid)
  | none =>
    let created := insertPerson st.db entry.firstName entry.lastName userId
    ({ st with
        db := created.1,
        createdPersons := st.createdPersons ++ [created.2],
        nameMap := mapSet st.nameMap newPersonKey created.2.id }, created.2.id)

/-- Second half of one bulk entry: resolve the related person strictly by name,
skip on self or any existing relationship between the pair, translate the bulk
vocabulary to the canonical PARENT direction, insert, then run the smart
linking (whose ensures count their insertions). -/
def bulkRelationPhase (userId : String) (st1 : BulkSt) (newPersonId : Nat)
    (entry : BulkImportEntry) : BulkSt :=
  match entry.relatedFirstName, entry.relatedLastName, entry.relationshipType with
  | some relatedFirst, some relatedLast, some rt =>
    match mapGet st1.nameMap (nameKey relatedFirst relatedLast) with
    | none => st1
    | some relatedPersonId =>
      if newPersonId = relatedPersonId then st1
      else if (findAnyRelBetween st1.db.relationships newPersonId relatedPersonId).isSome then
        st1
      else
        let db2 :=
          match rt with
          | BulkRelType.PARENT =>
            (insertRel st1.db relatedPersonId newPersonId RelType.PARENT userId).1
          | BulkRelType.CHILD =>
            (insertRel st1.db newPersonId relatedPersonId RelType.PARENT userId).1
          | BulkRelType.SIBLING =>
            (insertRel st1.db newPersonId relatedPersonId RelType.SIBLING userId).1
          | BulkRelType.SPOUSE =>
            (insertRel st1.db newPersonId relatedPersonId RelType.SPOUSE userId).1
        let count2 := st1.relationshipsCreated + 1
        let linked : DB × Nat :=
          match rt with
          | BulkRelType.SIBLING =>
            let parentIds := (getParentIds db2.relationships newPersonId ++
              getParentIds db2.relationships relatedPersonId).eraseDups
            parentIds.foldl
              (fun acc parentId =>
                let acc1 := bulkCreateParentLinkIfMissing acc.1 parentId newPersonId userId acc.2
                bulkCreateParentLinkIfMissing acc1.1 parentId relatedPersonId userId acc1.2)
              (db2, count2)
          | BulkRelType.SPOUSE =>
            let childrenOfNew := getChildIds db2.relationships newPersonId
            let childrenOfRelated := getChildIds db2.relationships relatedPersonId
            let acc1 := childrenOfNew.foldl
              (fun acc childId =>
                bulkCreateParentLinkIfMissing acc.1 relatedPersonId childId userId acc.2)
              (db2, count2)
            childrenOfRelated.foldl
              (fun acc childId =>
                bulkCreateParentLinkIfMissing acc.1 newPersonId childId userId acc.2)
              acc1
          | _ =>
            let parentId := if rt = BulkRelType.PARENT then relatedPersonId else newPersonId
            let childId := if rt = BulkRelType.PARENT then newPersonId else relatedPersonId
            (getSpouseIds db2.relationships parentId).foldl
              (fun acc spouseId =>
                bulkCreateParentLinkIfMissing acc.1 spouseId childId userId acc.2)
              (db2, count2)
        { st1 with db := linked.1, relationshipsCreated := linked.2 }
  | _, _, _ => st1

/-- Processing of one bulk entry: person resolution then the relation phase. -/
def bulkProcessEntry (userId : String) (st : BulkSt) (entry : BulkImportEntry) : BulkSt :=
  let resolved := bulkResolvePerson userId st entry
  bulkRelationPhase userId resolved.1 resolved.2 entry

/-- `bulkCreatePersonsWithRelationships`: one atomic batch over the entries, in
order, returning the newly created persons and the relationship count. -/
def bulkCreatePersonsWithRelationships (db : DB) (entries : List BulkImportEntry)
    (userId : String) : DB × List Person × Nat :=
  let final := entries.foldl (bulkProcessEntry userId) ⟨db, [], buildNameMap db.persons, 0⟩
  (final.db, final.createdPersons, final.relationshipsCreated)

/-! ## Reachable store states -/
/-- Store states reachable through the modelled mutations, starting empty. -/
inductive Reachable : DB → Prop where
  | empty : Reachable ⟨[], [], 0, 0⟩
  | createPerson {db : DB} (firstName lastName userId : String) :
      Reachable db → Reachable (createPerson db firstName lastName userId).1
  | createRel {db db' : DB} {data : CreateRelationshipDto} {userId : String}
      {isAdmin : Bool} {r : Relationship} :
      Reachable db → createRelationship db data userId isAdmin = Except.ok (db', r) →
      Reachable db'
  | deleteRel {db db' : DB} {id : Nat} {userId : String} {isAdmin : Bool} :
      Reachable db → deleteRelationship db id userId isAdmin = Except.ok db' →
      Reachable db'
  | bulkImport {db : DB} (entries : List BulkImportEntry) (userId : String) :
      Reachable db → Reachable (bulkCreatePersonsWithRelationships db entries userId).1

/-! ## Claim C1 -/
def c1Db0 : DB := ⟨[], [], 0, 0⟩

def c1Db1 : DB := (createPerson c1Db0 "Al" "X" "u").1

def c1Db2 : DB := (createPerson c1Db1 "Bo" "X" "u").1

def c1Db3 : DB := (createPerson c1Db2 "Cy" "X" "u").1

def c1Res4 : Except CreateError (DB × Relationship) :=
  createRelationship c1Db3 ⟨0, 1, RelType.PARENT⟩ "u" true

def c1Db4 : DB := match c1Res4 with | .ok x => x.1 | .error _ => c1Db3

def c1Rel4 : Relationship :=
  match c1Res4 with | .ok x => x.2 | .error _ => ⟨0, 0, 0, RelType.PARENT, "u"⟩

def c1Res5 : Except CreateError (DB × Relationship) :=
  createRelationship c1Db4 ⟨1, 2, RelType.PARENT⟩ "u" true

def c1Db5 : DB := match c1Res5 with | .ok x => x.1 | .error _ => c1Db4

def c1Rel5 : Relationship :=
  match c1Res5 with | .ok x => x.2 | .error _ => ⟨0, 0, 0, RelType.PARENT, "u"⟩

/-- The bulk entry whose UX-facing PARENT vocabulary makes Cy a parent of Al. -/
def c1Entry : BulkImportEntry := ⟨"Al", "X", some "Cy", some "X", some BulkRelType.PARENT⟩

def c1Db6 : DB := (bulkCreatePersonsWithRelationships c1Db5 [c1Entry] "u").1

def c2Db : DB :=
  ⟨[⟨0, "A", "X", "u"⟩, ⟨1, "B", "X", "u"⟩, ⟨2, "C", "X", "u"⟩],
   [⟨0, 0, 1, RelType.PARENT, "u"⟩, ⟨1, 1, 2, RelType.PARENT, "u"⟩], 3, 2⟩

/-! ## Claim C3 -/
def c3Db : DB :=
  ⟨[⟨0, "P", "X", "v"⟩, ⟨1, "A", "X", "u"⟩, ⟨2, "B", "X", "u"⟩],
   [⟨0, 0, 1, RelType.PARENT, "v"⟩], 3, 1⟩

def c3Res : Except CreateError (DB × Relationship) :=
  createRelationship c3Db ⟨1, 2, RelType.SIBLING⟩ "u" false

def c3Db' : DB := match c3Res with | .ok x => x.1 | .error _ => c3Db

def c3Rel' : Relationship :=
  match c3Res with | .ok x => x.2 | .error _ => ⟨0, 0, 0, RelType.PARENT, "u"⟩

def c3wDb : DB :=
  ⟨[⟨0, "P", "X", "u"⟩, ⟨1, "A", "X", "u"⟩, ⟨2, "B", "X", "u"⟩],
   [⟨0, 0, 1, RelType.PARENT, "u"⟩], 3, 1⟩

def c3wRes : Except CreateError (DB × Relationship) :=
  createRelationship c3wDb ⟨1, 2, RelType.SIBLING⟩ "u" false

def c3wDb' : DB := match c3wRes with | .ok x => x.1 | .error _ => c3wDb

def c3wRel' : Relationship :=
  match c3wRes with | .ok x => x.2 | .error _ => ⟨0, 0, 0, RelType.PARENT, "u"⟩

/-! ## Claim C4 -/
def c4Db : DB := ⟨[⟨0, "A", "X", "v"⟩], [], 1, 0⟩

/-! ## Claim C9 -/
/-- Modelled from the spec: the `normalizeRelationships` service method is
missing from the sources (only its controller caller,
`relationship.controller.ts:230-250`, and its route exist).  Per §4.2 of the
spec it "re-runs the Propagator over every existing SIBLING, SPOUSE, and
PARENT edge in the graph, in stored order": a fold of the single-pass
propagator (§4.3, `propagateRel` above — the same blocks `createRelationship`
runs) over the snapshot of stored edges, threading the evolving store. -/
def normalizeRelationships (db : DB) (userId : String) (isAdmin : Bool) : DB :=
  db.relationships.foldl
    (fun acc r => propagateRel acc r.person1Id r.person2Id r.relationshipType userId isAdmin) db

def c9Db : DB :=
  ⟨[⟨0, "A", "X", "u"⟩, ⟨1, "B", "X", "u"⟩, ⟨2, "F", "X", "u"⟩, ⟨3, "C", "X", "u"⟩],
   [⟨0, 1, 2, RelType.SPOUSE, "u"⟩, ⟨1, 0, 1, RelType.SPOUSE, "u"⟩,
    ⟨2, 0, 3, RelType.PARENT, "u"⟩], 4, 3⟩

/-- At most one PARENT row per unordered pair of persons. -/
def ParentOncePerPair (rels : List Relationship) : Prop :=
  List.Pairwise
    (fun r s => ¬(r.relationshipType = RelType.PARENT ∧ s.relationshipType = RelType.PARENT ∧
      ((r.person1Id = s.person1Id ∧ r.person2Id = s.person2Id) ∨
       (r.person1Id = s.person2Id ∧ r.person2Id = s.person1Id)))) rels

instance (rels : List Relationship) : Decidable (ParentOncePerPair rels) := by
  unfold ParentOncePerPair
  infer_instance

/-! ## Hierarchical Layout Engine (`frontend/src/stores/treeStore.ts`)

Embedding of `computeHierarchyPositions`' vertical structure: base depths,
the two union-finds, the bounded relaxation loop, the bucketing of spouse
groups by depth and the y-coordinate `level * NODE_Y_SPACING` (the horizontal
placement of the source is not modelled: no claim concerns x-coordinates).
JS `Map`s keyed by person id are modelled through the first-occurrence list of
person ids (`personKeys`); depth maps are most-recent-first association lists
with default 0, matching `depth.get(id) ?? 0`. -/
def NODE_Y_SPACING : Nat := 240

def personIds (persons : List Person) : List Nat := persons.map (fun p => p.id)

/-- Iteration order of the JS `Map`s keyed by person id. -/
def personKeys (persons : List Person) : List Nat := (personIds persons).eraseDups

/-- `parentIdsByChild`: initialised for persons only; each PARENT row pushes its
person1 onto the person2 entry when that entry exists. -/
def parentIdsByChild (persons : List Person) (rels : List Relationship) (c : Nat) : List Nat :=
  if c ∈ personIds persons then
    (rels.filter (fun r => r.relationshipType = RelType.PARENT ∧ r.person2Id = c)).map
      (fun r => r.person1Id)
  else []

/-- The `spouseLinks`/`siblingLinks` set of a person: partners collected over the
rows in order (the JS Set keeps first occurrences), only for stored persons. -/
def linksOf (persons : List Person) (rels : List Relationship) (t : RelType) (p : Nat) :
    List Nat :=
  if p ∈ personIds persons then
    ((rels.filter (fun r => r.relationshipType = t)).foldl
      (fun acc r =>
        acc ++ (if r.person1Id = p then [r.person2Id] else []) ++
          (if r.person2Id = p then [r.person1Id] else [])) []).eraseDups
  else []

/-- The union pairs fed to a union-find: `for ([id, partners] of links.entries())
for (partner of partners) union(id, partner)`. -/
def unionPairs (persons : List Person) (rels : List Relationship) (t : RelType) :
    List (Nat × Nat) :=
  (personKeys persons).flatMap (fun p => (linksOf persons rels t p).map (fun q => (p, q)))

/-- Union-find parent map as a most-recent-first association list. -/
def ufLookup (m : List (Nat × Nat)) (x : Nat) : Option Nat :=
  (m.find? (fun e => e.1 = x)).map (fun e => e.2)

/-- `ufFind`, fueled; path compression of the source is omitted (it caches the
root but never changes it). -/
def ufFind (m : List (Nat × Nat)) : Nat → Nat → Nat
  | 0, x => x
  | fuel + 1, x =>
    match ufLookup m x with
    | none => x
    | some p => if p = x then x else ufFind m fuel p

/-- `ufUnion`: point the root of `b` at the root of `a` when they differ. -/
def ufUnion (m : List (Nat × Nat)) (fuel : Nat) (a b : Nat) : List (Nat × Nat) :=
  let rootA := ufFind m fuel a
  let rootB := ufFind m fuel b
  if rootB = rootA then m else (rootB, rootA) :: m

def buildUF (pairs : List (Nat × Nat)) (fuel : Nat) : List (Nat × Nat) :=
  pairs.foldl (fun m pr => ufUnion m fuel pr.1 pr.2) []

def spousePairs (persons : List Person) (rels : List Relationship) : List (Nat × Nat) :=
  unionPairs persons rels RelType.SPOUSE

def siblingPairs (persons : List Person) (rels : List Relationship) : List (Nat × Nat) :=
  unionPairs persons rels RelType.SIBLING

/-- The spouse union-find (`ufParent`): SPOUSE pairs only. -/
def spouseUF (persons : List Person) (rels : List Relationship) : List (Nat × Nat) :=
  buildUF (spousePairs persons rels) ((spousePairs persons rels).length + 1)

/-- The generation union-find (`generationParent`): SPOUSE pairs, then SIBLING
pairs. -/
def generationUF (persons : List Person) (rels : List Relationship) : List (Nat × Nat) :=
  buildUF (spousePairs persons rels ++ siblingPairs persons rels)
    ((spousePairs persons rels ++ siblingPairs persons rels).length + 1)

def spouseRoot (persons : List Person) (rels : List Relationship) (x : Nat) : Nat :=
  ufFind (spouseUF persons rels) ((spousePairs persons rels).length + 1) x

def generationRoot (persons : List Person) (rels : List Relationship) (x : Nat) : Nat :=
  ufFind (generationUF persons rels)
    ((spousePairs persons rels ++ siblingPairs persons rels).length + 1) x

/-- The groups of a `Map`-accumulated partition, in first-occurrence order of
roots, members in person order. -/
def groupsBy (roots : Nat → Nat) (keys : List Nat) : List (List Nat) :=
  ((keys.map roots).eraseDups).map (fun rt => keys.filter (fun k => roots k = rt))

def generationGroups (persons : List Person) (rels : List Relationship) : List (List Nat) :=
  groupsBy (generationRoot persons rels) (personKeys persons)

/-- Depth map primitives: `depth.get(id) ?? 0`, `depth.has(id)`, `depth.set`. -/
def dGet (d : List (Nat × Nat)) (x : Nat) : Nat :=
  ((d.find? (fun e => e.1 = x)).map (fun e => e.2)).getD 0

def dFind (d : List (Nat × Nat)) (x : Nat) : Option Nat :=
  (d.find? (fun e => e.1 = x)).map (fun e => e.2)

/-- The memoised, cycle-guarded `getDepth` recursion: memo hit, else a node
currently being visited yields 0, else `1 + max(parent depths)` (0 when no
parents), threading the memo map; `fuel` bounds the recursion depth (the
visiting chain has pairwise-distinct members, so `persons.length +
rels.length + 1` covers every run of the source). -/
def getDepthAux (parentsOf : Nat → List Nat) :
    Nat → Nat → List Nat → List (Nat × Nat) → List (Nat × Nat) × Nat
  | 0, _, _, dm => (dm, 0)
  | fuel + 1, i, visiting, dm =>
    match dFind dm i with
    | some v => (dm, v)
    | none =>
      if i ∈ visiting then (dm, 0)
      else
        let ps := parentsOf i
        let folded := ps.foldl
          (fun (acc : List (Nat × Nat) × Nat) pid =>
            let r := getDepthAux parentsOf fuel pid (i :: visiting) acc.1
            (r.1, max acc.2 r.2)) (dm, 0)
        let value := if ps.isEmpty then 0 else folded.2 + 1
        ((i, value) :: folded.1, value)

/-- `for (const person of persons) getDepth(person.id)`. -/
def baseDepths (persons : List Person) (rels : List Relationship) : List (Nat × Nat) :=
  (personIds persons).foldl
    (fun dm i =>
      (getDepthAux (parentIdsByChild persons rels) (persons.length + rels.length + 1) i
        [] dm).1)
    []

/-- Relaxation step (a): raise every generation group to the max depth among
its members, flagging a change. -/
def passA (groups : List (List Nat)) (st : List (Nat × Nat) × Bool) :
    List (Nat × Nat) × Bool :=
  groups.foldl
    (fun acc g =>
      let maxDepth := g.foldl (fun m i => max m (dGet acc.1 i)) 0
      g.foldl
        (fun acc2 i =>
          if dGet acc2.1 i ≠ maxDepth then ((i, maxDepth) :: acc2.1, true) else acc2)
        acc)
    st

/-- Relaxation step (b): raise every person with parents to
`max(parent depths) + 1`, flagging a change. -/
def passB (persons : List Person) (rels : List Relationship)
    (st : List (Nat × Nat) × Bool) : List (Nat × Nat) × Bool :=
  (personKeys persons).foldl
    (fun acc c =>
      let ps := parentIdsByChild persons rels c
      if ps.isEmpty then acc
      else
        let maxParentDepth := ps.foldl (fun m p => max m (dGet acc.1 p)) 0
        let requiredDepth := maxParentDepth + 1
        if dGet acc.1 c < requiredDepth then ((c, requiredDepth) :: acc.1, true) else acc)
    st

/-- One full pass of the `while (changed && guard < persons.length * 4)` loop. -/
def relaxPass (persons : List Person) (rels : List Relationship)
    (groups : List (List Nat)) (dm : List (Nat × Nat)) : List (Nat × Nat) × Bool :=
  passB persons rels (passA groups (dm, false))

/-- The bounded relaxation loop: run passes while they report a change, up to
the `persons.length * 4` guard. -/
def relaxLoop (persons : List Person) (rels : List Relationship)
    (groups : List (List Nat)) : Nat → List (Nat × Nat) → List (Nat × Nat)
  | 0, dm => dm
  | fuel + 1, dm =>
    let r := relaxPass persons rels groups dm
    if r.2 then relaxLoop persons rels groups fuel r.1 else r.1

/-- The final per-person depths of `computeHierarchyPositions`. -/
def hierarchyDepths (persons : List Person) (rels : List Relationship) :
    List (Nat × Nat) :=
  relaxLoop persons rels (generationGroups persons rels) (persons.length * 4)
    (baseDepths persons rels)

/-- The spouse group (cohort) a person belongs to. -/
def spouseGroupOf (persons : List Person) (rels : List Relationship) (x : Nat) : List Nat :=
  (personKeys persons).filter (fun k => spouseRoot persons rels k = spouseRoot persons rels x)

/-- A spouse group's level: the max final depth among its members
(`groupsByDepth` bucketing). -/
def groupLevel (dm : List (Nat × Nat)) (group : List Nat) : Nat :=
  group.foldl (fun m i => max m (dGet dm i)) 0

/-- The y-coordinate assigned to a person: its spouse group is bucketed at the
group's level and every member receives `y = level * NODE_Y_SPACING`. -/
def hierarchyY (persons : List Person) (rels : List Relationship) (x : Nat) : Nat :=
  groupLevel (hierarchyDepths persons rels) (spouseGroupOf persons rels x) * NODE_Y_SPACING

/-! ## Visibility/Collapse filter -/
/-- `buildChildMap` entry of one parent: its PARENT children as a JS Set
(first occurrences). -/
def childSet (rels : List Relationship) (p : Nat) : List Nat :=
  ((rels.filter (fun r => r.relationshipType = RelType.PARENT ∧ r.person1Id = p)).map
    (fun r => r.person2Id)).eraseDups

/-- The BFS loop of `collectDescendants`: pop, skip if already collected,
otherwise collect and enqueue the not-yet-collected children.  `fuel` bounds
the iteration count; every iteration pops one element and pushes at most one
child list, so `(rels.length + 1) * (rels.length + 2)` covers every
terminating run of the source's while loop. -/
def collectLoop (rels : List Relationship) : Nat → List Nat → List Nat → List Nat
  | 0, _, descendants => descendants
  | _ + 1, [], descendants => descendants
  | fuel + 1, current :: rest, descendants =>
    if current ∈ descendants then collectLoop rels fuel rest descendants
    else
      let descendants2 := descendants ++ [current]
      let queue2 := rest ++ (childSet rels current).filter (fun c => ¬ c ∈ descendants2)
      collectLoop rels fuel queue2 descendants2

def collectDescendants (rels : List Relationship) (rootId : Nat) : List Nat :=
  collectLoop rels ((rels.length + 1) * (rels.length + 2)) (childSet rels rootId) []

/-- `computeVisibleGraph`: with no collapsed ids the inputs are returned as
they are; otherwise the hidden set is the union of the collapsed ids' strict
descendants, visible persons are the rest and a relationship stays visible
exactly when both endpoints are visible persons. -/
def computeVisibleGraph (persons : List Person) (rels : List Relationship)
    (collapsedIds : List Nat) : List Person × List Relationship :=
  if collapsedIds.isEmpty then (persons, rels)
  else
    let hidden := collapsedIds.foldl
      (fun acc i => acc ++ (collectDescendants rels i).filter (fun d => ¬ d ∈ acc)) []
    let visiblePersons := persons.filter (fun p => ¬ p.id ∈ hidden)
    let visiblePersonIds := visiblePersons.map (fun p => p.id)
    let visibleRelationships := rels.filter
      (fun r => r.person1Id ∈ visiblePersonIds ∧ r.person2Id ∈ visiblePersonIds)
    (visiblePersons, visibleRelationships)

/-- The set of ids occurring as the child of some stored PARENT row (the
universe the collapse BFS can ever enqueue). -/
def parentTargets (rels : List Relationship) : Finset Nat :=
  ((rels.filter (fun r => r.relationshipType = RelType.PARENT)).map
    (fun r => r.person2Id)).toFinset

/-! ## Concrete layout stores -/
/-- Persons D(0), P(1), Q(2), A(3). -/
def c5Persons : List Person :=
  [⟨0, "D", "X", "u"⟩, ⟨1, "P", "X", "u"⟩, ⟨2, "Q", "X", "u"⟩, ⟨3, "A", "X", "u"⟩]

/-- SPOUSE(P,Q), SIBLING(A,Q), PARENT(P,A), PARENT(A,D): the spouse/sibling
links put P, Q and A into one generation group while PARENT edges demand
A above P and D above A, so the relaxation never converges. -/
def c5Rels : List Relationship :=
  [⟨0, 1, 2, RelType.SPOUSE, "u"⟩, ⟨1, 3, 2, RelType.SIBLING, "u"⟩,
   ⟨2, 1, 3, RelType.PARENT, "u"⟩, ⟨3, 3, 0, RelType.PARENT, "u"⟩]

/-- Persons P(0), A(1). -/
def c5wPersons : List Person := [⟨0, "P", "X", "u"⟩, ⟨1, "A", "X", "u"⟩]

/-- A single PARENT(P,A) row: the relaxation converges immediately. -/
def c5wRels : List Relationship := [⟨0, 0, 1, RelType.PARENT, "u"⟩]

/-- Persons P(0), A(1), B(2). -/
def c8Persons : List Person :=
  [⟨0, "P", "X", "u"⟩, ⟨1, "A", "X", "u"⟩, ⟨2, "B", "X", "u"⟩]

/-- PARENT(P,A) and SIBLING(A,B), no SPOUSE rows at all. -/
def c8Rels : List Relationship :=
  [⟨0, 0, 1, RelType.PARENT, "u"⟩, ⟨1, 1, 2, RelType.SIBLING, "u"⟩]

/-- Persons P(0), A(1), B(2), C(3). -/
def c6Persons : List Person :=
  [⟨0, "P", "X", "u"⟩, ⟨1, "A", "X", "u"⟩, ⟨2, "B", "X", "u"⟩, ⟨3, "C", "X", "u"⟩]

/-- PARENT(P,A), PARENT(A,B) and SPOUSE(C,P): collapsing P hides A and B. -/
def c6Rels : List Relationship :=
  [⟨0, 0, 1, RelType.PARENT, "u"⟩, ⟨1, 1, 2, RelType.PARENT, "u"⟩,
   ⟨2, 3, 0, RelType.SPOUSE, "u"⟩]

/-- Parent chains of the union-find map, indexed by step count. -/
inductive UFChainN (m : List (Nat × Nat)) : Nat → Nat → Nat → Prop where
  | root {x : Nat} : ufLookup m x = none → UFChainN m x x 0
  | step {x p r n : Nat} : ufLookup m x = some p → p ≠ x → UFChainN m p r n →
      UFChainN m x r (n + 1)

/-- Well-formed union-find maps: every binding was added with an unbound key,
an unbound value, and distinct endpoints — exactly what `ufUnion` does. -/
inductive GoodUF : List (Nat × Nat) → Prop where
  | nil : GoodUF []
  | cons {m : List (Nat × Nat)} {k v : Nat} : GoodUF m → ufLookup m k = none →
      ufLookup m v = none → k ≠ v → GoodUF ((k, v) :: m)

/-- Invariant threaded through the sibling propagation fold (specification
side): the persons table is untouched, and the derived edge PARENT(P,B) either
has already been created, or its ensure-time checks are still guaranteed to
pass — no PARENT row between P and B in either direction, B does not reach P,
and A does not reach P (so edges derived into A or B cannot complete a B-to-P
path). -/
def EnsureInv (dbo : DB) (A B P : Nat) (acc : DB) : Prop :=
  acc.persons = dbo.persons ∧
  (ParentEdge acc.relationships P B ∨
    (findParentRelBetween acc.relationships P B = none ∧
      ¬ Reaches acc.relationships B P ∧ ¬ Reaches acc.relationships A P))

theorem DfsLe.rfl (s : DfsSt) : DfsLe s s := ⟨fun _ h => h, fun _ h => h⟩

theorem DfsLe.trans {s t u : DfsSt} (h1 : DfsLe s t) (h2 : DfsLe t u) : DfsLe s u :=
  ⟨fun x hx => h2.1 x (h1.1 x hx), fun x hx => h2.2 x (h1.2 x hx)⟩

theorem Processed.mono {rels : List Relationship} {s t : DfsSt} {v : Nat}
    (hle : DfsLe s t) (h : Processed rels s v) : Processed rels t v :=
  fun r hr ht hp => ⟨hle.2 _ ((h r hr ht hp).1), hle.1 _ ((h r hr ht hp).2)⟩

/-- Invariant-preservation along a left fold. -/
theorem foldlInv {α σ : Type _} (P : σ → Prop) (f : σ → α → σ) :
    ∀ (l : List α) (s : σ), (∀ t a, a ∈ l → P t → P (f t a)) → P s → P (l.foldl f s)
  | [], _, _, hs => hs
  | a :: l, s, h, hs =>
    foldlInv P f l (f s a) (fun t b hb ht => h t b (List.mem_cons_of_mem a hb) ht)
      (h s a (List.mem_cons_self a l) hs)

theorem dfs_measure_mono {U : Finset Nat} {s t : DfsSt}
    (h : ∀ x, x ∈ s.visited → x ∈ t.visited) :
    (U \ t.visited.toFinset).card ≤ (U \ s.visited.toFinset).card := by
  apply Finset.card_le_card
  intro x hx
  simp only [Finset.mem_sdiff, List.mem_toFinset] at hx ⊢
  exact ⟨hx.1, fun hxs => hx.2 (h x hxs)⟩

theorem dfs_measure_drop {U : Finset Nat} {st : DfsSt} {pid : Nat}
    (hU : pid ∈ U) (hnv : pid ∉ st.visited) :
    (U \ (⟨pid :: st.visited, st.descendants⟩ : DfsSt).visited.toFinset).card
      < (U \ st.visited.toFinset).card := by
  apply Finset.card_lt_card
  constructor
  · intro x hx
    simp only [Finset.mem_sdiff, List.mem_toFinset, List.mem_cons] at hx ⊢
    exact ⟨hx.1, fun hxs => hx.2 (Or.inr hxs)⟩
  · intro hsub
    have hmem : pid ∈ U \ st.visited.toFinset := by
      simp only [Finset.mem_sdiff, List.mem_toFinset]
      exact ⟨hU, hnv⟩
    have h2 := hsub hmem
    simp only [Finset.mem_sdiff, List.mem_toFinset, List.mem_cons] at h2
    exact h2.2 (Or.inl trivial)

theorem mem_childRelsOf {rels : List Relationship} {r : Relationship} {pid : Nat} :
    r ∈ childRelsOf rels pid ↔
      r ∈ rels ∧ r.person1Id = pid ∧ r.relationshipType = RelType.PARENT := by
  simp [childRelsOf, List.mem_filter]

theorem findDescendants_main (rels : List Relationship) (U : Finset Nat)
    (hcl : ∀ r ∈ rels, r.relationshipType = RelType.PARENT → r.person2Id ∈ U) :
    ∀ fuel, DfsSpec rels U fuel := by
  intro fuel
  induction fuel with
  | zero =>
    intro pid st hU hm
    have hpid : pid ∈ st.visited := by
      by_contra hnv
      have hx : pid ∈ U \ st.visited.toFinset := by
        simp only [Finset.mem_sdiff, List.mem_toFinset]
        exact ⟨hU, hnv⟩
      have := Finset.card_pos.mpr ⟨pid, hx⟩
      omega
    simp only [findDescendants]
    exact ⟨DfsLe.rfl st, hpid, fun v hv => Or.inl hv⟩
  | succ fuel ih =>
    intro pid st hU hm
    by_cases hpid : pid ∈ st.visited
    · simp only [findDescendants, if_pos hpid]
      exact ⟨DfsLe.rfl st, hpid, fun v hv => Or.inl hv⟩
    · simp only [findDescendants, if_neg hpid]
      have hms0 :
          (U \ (({ st with visited := pid :: st.visited } : DfsSt)).visited.toFinset).card ≤ fuel := by
        have hd := @dfs_measure_drop U st pid hU hpid
        omega
      have inner : ∀ (l : List Relationship),
          (∀ r ∈ l, r ∈ rels ∧ r.relationshipType = RelType.PARENT) →
          ∀ s : DfsSt, pid ∈ s.visited →
            (∀ v ∈ s.visited, v ∈ st.visited ∨ v = pid ∨ Processed rels s v) →
            (U \ s.visited.toFinset).card ≤ fuel →
            DfsLe s (l.foldl
              (fun acc r =>
                findDescendants rels fuel r.person2Id
                  { acc with descendants := acc.descendants ++ [r.person2Id] }) s) ∧
            (∀ r ∈ l,
              r.person2Id ∈ (l.foldl
                (fun acc r =>
                  findDescendants rels fuel r.person2Id
                    { acc with descendants := acc.descendants ++ [r.person2Id] }) s).descendants ∧
              r.person2Id ∈ (l.foldl
                (fun acc r =>
                  findDescendants rels fuel r.person2Id
                    { acc with descendants := acc.descendants ++ [r.person2Id] }) s).visited) ∧
            (∀ v ∈ (l.foldl
                (fun acc r =>
                  findDescendants rels fuel r.person2Id
                    { acc with descendants := acc.descendants ++ [r.person2Id] }) s).visited,
              v ∈ st.visited ∨ v = pid ∨ Processed rels (l.foldl
                (fun acc r =>
                  findDescendants rels fuel r.person2Id
                    { acc with descendants := acc.descendants ++ [r.person2Id] }) s) v) := by
        intro l
        induction l with
        | nil =>
          intro _ s hpids hinv _
          simp only [List.foldl_nil]
          exact ⟨DfsLe.rfl s, fun r hr => absurd hr (List.not_mem_nil r), hinv⟩
        | cons r l ihl =>
          intro hl s hpids hinv hmes
          simp only [List.foldl_cons]
          have hr := hl r (List.mem_cons_self r l)
          have hrU : r.person2Id ∈ U := hcl r hr.1 hr.2
          -- the state after pushing the child of `r`
          have hpush : DfsLe s ({ s with descendants := s.descendants ++ [r.person2Id] }) :=
            ⟨fun x hx => hx, fun x hx => by
              simp only [List.mem_append]
              exact Or.inl hx⟩
          have hmes2 :
              (U \ (({ s with descendants := s.descendants ++ [r.person2Id] } : DfsSt)).visited.toFinset).card ≤ fuel :=
            hmes
          obtain ⟨hle1, hmem1, hproc1⟩ :=
            ih r.person2Id ({ s with descendants := s.descendants ++ [r.person2Id] }) hrU hmes2
          -- name the state after the recursive call on the head child
          have hles : DfsLe s (findDescendants rels fuel r.person2Id
              { s with descendants := s.descendants ++ [r.person2Id] }) :=
            DfsLe.trans hpush hle1
          have hinv1 : ∀ v ∈ (findDescendants rels fuel r.person2Id
              { s with descendants := s.descendants ++ [r.person2Id] }).visited,
              v ∈ st.visited ∨ v = pid ∨ Processed rels (findDescendants rels fuel r.person2Id
                { s with descendants := s.descendants ++ [r.person2Id] }) v := by
            intro v hv
            rcases hproc1 v hv with hvs | hvp
            · rcases hinv v hvs with h | h | h
              · exact Or.inl h
              · exact Or.inr (Or.inl h)
              · exact Or.inr (Or.inr (h.mono hles))
            · exact Or.inr (Or.inr hvp)
          have hmes1 : (U \ (findDescendants rels fuel r.person2Id
              { s with descendants := s.descendants ++ [r.person2Id] }).visited.toFinset).card ≤ fuel :=
            le_trans (dfs_measure_mono hles.1) hmes
          obtain ⟨hle2, hmemall, hproc2⟩ :=
            ihl (fun r' hr' => hl r' (List.mem_cons_of_mem r hr'))
              (findDescendants rels fuel r.person2Id
                { s with descendants := s.descendants ++ [r.person2Id] })
              (hles.1 pid hpids) hinv1 hmes1
          refine ⟨DfsLe.trans hles hle2, ?_, hproc2⟩
          intro r' hr'
          rcases List.mem_cons.mp hr' with rfl | hr'l
          · refine ⟨hle2.2 _ (hle1.2 _ ?_), hle2.1 _ hmem1⟩
            exact List.mem_append.mpr (Or.inr (List.mem_singleton.mpr rfl))
          · exact hmemall r' hr'l
      obtain ⟨hle, hall, hproc⟩ :=
        inner (childRelsOf rels pid)
          (fun r hr => ⟨(mem_childRelsOf.mp hr).1, (mem_childRelsOf.mp hr).2.2⟩)
          ({ st with visited := pid :: st.visited }) (List.mem_cons_self pid st.visited)
          (fun v hv => by
            rcases List.mem_cons.mp hv with rfl | hvs
            · exact Or.inr (Or.inl rfl)
            · exact Or.inl hvs)
          hms0
      have hst0 : DfsLe st ({ st with visited := pid :: st.visited }) :=
        ⟨fun x hx => List.mem_cons_of_mem pid hx, fun x hx => hx⟩
      refine ⟨?_, ?_, ?_⟩
      · exact DfsLe.trans hst0 hle
      · exact hle.1 pid (List.mem_cons_self pid st.visited)
      · intro v hv
        rcases hproc v hv with h | h | h
        · exact Or.inl h
        · subst h
          refine Or.inr ?_
          intro r hr ht hp
          exact hall r (mem_childRelsOf.mpr ⟨hr, hp, ht⟩)
        · exact Or.inr h

/-- Completeness of the cycle detector's traversal: every strict descendant is
found. -/
theorem reaches_mem_getAllDescendants {rels : List Relationship} {a b : Nat}
    (h : Reaches rels a b) : b ∈ getAllDescendants rels a := by
  classical
  set U : Finset Nat :=
    insert a ((rels.filter (fun r => r.relationshipType = RelType.PARENT)).map
      (fun r => r.person2Id)).toFinset with hUdef
  have hcl : ∀ r ∈ rels, r.relationshipType = RelType.PARENT → r.person2Id ∈ U := by
    intro r hr ht
    apply Finset.mem_insert_of_mem
    simp only [List.mem_toFinset, List.mem_map]
    exact ⟨r, List.mem_filter.mpr ⟨hr, by simp [ht]⟩, rfl⟩
  have hcard : (U \ (([] : List Nat)).toFinset).card ≤ rels.length + 1 := by
    have h1 : U.card ≤
        ((rels.filter (fun r => r.relationshipType = RelType.PARENT)).map
          (fun r => r.person2Id)).toFinset.card + 1 := Finset.card_insert_le _ _
    have h2 : ((rels.filter (fun r => r.relationshipType = RelType.PARENT)).map
        (fun r => r.person2Id)).toFinset.card ≤ rels.length := by
      calc ((rels.filter (fun r => r.relationshipType = RelType.PARENT)).map
          (fun r => r.person2Id)).toFinset.card
          ≤ ((rels.filter (fun r => r.relationshipType = RelType.PARENT)).map
            (fun r => r.person2Id)).length := List.toFinset_card_le _
        _ = (rels.filter (fun r => r.relationshipType = RelType.PARENT)).length :=
            List.length_map _ _
        _ ≤ rels.length := List.length_filter_le _ _
    have h3 : (U \ (([] : List Nat)).toFinset).card ≤ U.card :=
      Finset.card_le_card (Finset.sdiff_subset)
    omega
  obtain ⟨-, hmema, hproc⟩ :=
    findDescendants_main rels U hcl (rels.length + 1) a ⟨[], []⟩
      (Finset.mem_insert_self a _) hcard
  have hforall : ∀ v ∈ (findDescendants rels (rels.length + 1) a ⟨[], []⟩).visited,
      Processed rels (findDescendants rels (rels.length + 1) a ⟨[], []⟩) v := by
    intro v hv
    rcases hproc v hv with h | h
    · cases h
    · exact h
  have key : b ∈ (findDescendants rels (rels.length + 1) a ⟨[], []⟩).descendants ∧
      b ∈ (findDescendants rels (rels.length + 1) a ⟨[], []⟩).visited := by
    induction h with
    | single hstep =>
      obtain ⟨r, hr, ht, hp1, hp2⟩ := hstep
      have := hforall a hmema r hr ht hp1
      exact hp2 ▸ this
    | tail _ hstep ihb =>
      obtain ⟨r, hr, ht, hp1, hp2⟩ := hstep
      have := hforall _ ihb.2 r hr ht hp1
      exact hp2 ▸ this
  exact key.1

/-- Soundness of the traversal: everything it pushes is a strict descendant. -/
theorem getAllDescendants_sound_aux (rels : List Relationship) (a : Nat) :
    ∀ fuel (pid : Nat) (st : DfsSt), (pid = a ∨ Reaches rels a pid) →
      (∀ d ∈ st.descendants, Reaches rels a d) →
      ∀ d ∈ (findDescendants rels fuel pid st).descendants, Reaches rels a d := by
  intro fuel
  induction fuel with
  | zero => intro pid st _ hst; simpa only [findDescendants] using hst
  | succ fuel ih =>
    intro pid st hpid hst
    by_cases hv : pid ∈ st.visited
    · simpa only [findDescendants, if_pos hv] using hst
    · simp only [findDescendants, if_neg hv]
      refine foldlInv (fun s : DfsSt => ∀ d ∈ s.descendants, Reaches rels a d) _ _ _ ?_ hst
      intro t r hrl hinv
      have hme := mem_childRelsOf.mp hrl
      have hedge : ParentEdge rels pid r.person2Id :=
        ⟨r, hme.1, hme.2.2, hme.2.1, rfl⟩
      have hreach : Reaches rels a r.person2Id := by
        rcases hpid with rfl | hr
        · exact Relation.TransGen.single hedge
        · exact Relation.TransGen.tail hr hedge
      refine ih r.person2Id _ (Or.inr hreach) ?_
      intro d hd
      rcases List.mem_append.mp hd with hd | hd
      · exact hinv d hd
      · rcases List.mem_singleton.mp hd with rfl
        exact hreach

theorem getAllDescendants_sound {rels : List Relationship} {a b : Nat}
    (h : b ∈ getAllDescendants rels a) : Reaches rels a b :=
  getAllDescendants_sound_aux rels a (rels.length + 1) a ⟨[], []⟩ (Or.inl rfl)
    (by intro d hd; cases hd) b h

/-- `checkForCycle` decides strict reachability from the child to the parent. -/
theorem checkForCycle_iff (rels : List Relationship) (parentId childId : Nat) :
    checkForCycle rels parentId childId = true ↔ Reaches rels childId parentId := by
  constructor
  · intro h
    exact getAllDescendants_sound (of_decide_eq_true h)
  · intro h
    exact decide_eq_true (reaches_mem_getAllDescendants h)

/-! ## Graph lemmas: how mutations act on PARENT reachability -/
theorem parentEdge_append {rels : List Relationship} {r : Relationship} {a b : Nat} :
    ParentEdge (rels ++ [r]) a b ↔
      ParentEdge rels a b ∨
        (r.relationshipType = RelType.PARENT ∧ r.person1Id = a ∧ r.person2Id = b) := by
  constructor
  · rintro ⟨s, hs, ht, h1, h2⟩
    rcases List.mem_append.mp hs with hs | hs
    · exact Or.inl ⟨s, hs, ht, h1, h2⟩
    · rcases List.mem_singleton.mp hs with rfl
      exact Or.inr ⟨ht, h1, h2⟩
  · rintro (⟨s, hs, ht, h1, h2⟩ | ⟨ht, h1, h2⟩)
    · exact ⟨s, List.mem_append.mpr (Or.inl hs), ht, h1, h2⟩
    · exact ⟨r, List.mem_append.mpr (Or.inr (List.mem_singleton.mpr rfl)), ht, h1, h2⟩

/-- Appending a non-PARENT row leaves PARENT reachability unchanged. -/
theorem reaches_append_nonparent {rels : List Relationship} {r : Relationship}
    (ht : r.relationshipType ≠ RelType.PARENT) {a b : Nat} :
    Reaches (rels ++ [r]) a b ↔ Reaches rels a b := by
  constructor
  · intro h
    refine Relation.TransGen.mono ?_ h
    intro x y hxy
    rcases parentEdge_append.mp hxy with h | h
    · exact h
    · exact absurd h.1 ht
  · intro h
    exact Relation.TransGen.mono (fun x y hxy => parentEdge_append.mpr (Or.inl hxy)) h

/-- Decomposing transitive closure after adding the single edge `p → c`:
either a path avoids the new edge, or it factors through it. -/
theorem transGen_insert_edge {E : Nat → Nat → Prop} {p c : Nat}
    (hnpc : ¬ Relation.ReflTransGen E c p) {a b : Nat}
    (h : Relation.TransGen (fun x y => E x y ∨ (x = p ∧ y = c)) a b) :
    Relation.TransGen E a b ∨
      (Relation.ReflTransGen E a p ∧ Relation.ReflTransGen E c b) := by
  induction h with
  | single hstep =>
    rcases hstep with h | ⟨rfl, rfl⟩
    · exact Or.inl (Relation.TransGen.single h)
    · exact Or.inr ⟨Relation.ReflTransGen.refl, Relation.ReflTransGen.refl⟩
  | tail _ hstep ihb =>
    rcases hstep with hE | ⟨rfl, rfl⟩
    · rcases ihb with h | ⟨h1, h2⟩
      · exact Or.inl (Relation.TransGen.tail h hE)
      · exact Or.inr ⟨h1, Relation.ReflTransGen.tail h2 hE⟩
    · rcases ihb with h | ⟨h1, h2⟩
      · exact Or.inr ⟨h.to_reflTransGen, Relation.ReflTransGen.refl⟩
      · exact absurd h2 hnpc

/-- The heart of the acyclicity invariant: appending a PARENT row that passes
both the self check and the cycle check preserves acyclicity. -/
theorem acyclic_append_parent {rels : List Relationship} {r : Relationship}
    (hacy : AcyclicParent rels) (hne : r.person1Id ≠ r.person2Id)
    (hnr : ¬ Reaches rels r.person2Id r.person1Id) :
    AcyclicParent (rels ++ [r]) := by
  intro x hx
  have hnpc : ¬ Relation.ReflTransGen (ParentEdge rels) r.person2Id r.person1Id := by
    intro h
    rcases (Relation.reflTransGen_iff_eq_or_transGen.mp h) with h | h
    · exact hne h
    · exact hnr h
  have hx' : Relation.TransGen
      (fun u v => ParentEdge rels u v ∨ (u = r.person1Id ∧ v = r.person2Id)) x x := by
    refine Relation.TransGen.mono ?_ hx
    intro u v huv
    rcases parentEdge_append.mp huv with h | h
    · exact Or.inl h
    · exact Or.inr ⟨h.2.1.symm ▸ rfl, h.2.2.symm ▸ rfl⟩
  rcases transGen_insert_edge hnpc hx' with h | ⟨h1, h2⟩
  · exact hacy x h
  · exact hnpc (Relation.ReflTransGen.trans h2 h1)

/-- Removing rows can only shrink reachability, so deletion preserves acyclicity. -/
theorem acyclic_of_sublist {rels rels' : List Relationship}
    (hsub : ∀ r, r ∈ rels' → r ∈ rels) (hacy : AcyclicParent rels) :
    AcyclicParent rels' := by
  intro x hx
  refine hacy x (Relation.TransGen.mono ?_ hx)
  rintro u v ⟨s, hs, ht, h1, h2⟩
  exact ⟨s, hsub s hs, ht, h1, h2⟩

/-! ## Acyclicity is preserved by the mutation service -/
theorem createParentLinkIfMissing_acyclic (db : DB) (parentId childId : Nat)
    (userId : String) (isAdmin : Bool)
    (h : AcyclicParent db.relationships) :
    AcyclicParent (createParentLinkIfMissing db parentId childId userId isAdmin).relationships := by
  unfold createParentLinkIfMissing
  by_cases h1 : parentId = childId
  · simpa [h1] using h
  · simp only [if_neg h1]
    by_cases h2 : (if isAdmin then true
        else
          match findPerson db parentId, findPerson db childId with
          | some parent, some child =>
              decide (parent.createdById = userId) && decide (child.createdById = userId)
          | _, _ => false) = false
    · simpa [h2] using h
    · simp only [if_neg h2]
      by_cases h3 : (findParentRelBetween db.relationships parentId childId).isSome
      · simpa [h3] using h
      · simp only [if_neg h3]
        by_cases h4 : checkForCycle db.relationships parentId childId
        · simpa [h4] using h
        · simp only [if_neg h4, insertRel]
          refine acyclic_append_parent h h1 ?_
          intro hr
          exact h4 ((checkForCycle_iff _ _ _).mpr hr)

theorem propagateRel_acyclic (db : DB) (p1 p2 : Nat) (t : RelType) (userId : String)
    (isAdmin : Bool) (h : AcyclicParent db.relationships) :
    AcyclicParent (propagateRel db p1 p2 t userId isAdmin).relationships := by
  unfold propagateRel
  cases t with
  | SIBLING =>
    refine foldlInv (fun d : DB => AcyclicParent d.relationships) _ _ _ ?_ h
    intro d a _ hd
    exact createParentLinkIfMissing_acyclic _ _ _ _ _
      (createParentLinkIfMissing_acyclic _ _ _ _ _ hd)
  | SPOUSE =>
    refine foldlInv (fun d : DB => AcyclicParent d.relationships) _ _ _ ?_ ?_
    · intro d a _ hd
      exact createParentLinkIfMissing_acyclic _ _ _ _ _ hd
    · refine foldlInv (fun d : DB => AcyclicParent d.relationships) _ _ _ ?_ h
      intro d a _ hd
      exact createParentLinkIfMissing_acyclic _ _ _ _ _ hd
  | PARENT =>
    refine foldlInv (fun d : DB => AcyclicParent d.relationships) _ _ _ ?_ h
    intro d a _ hd
    exact createParentLinkIfMissing_acyclic _ _ _ _ _ hd

theorem createRelationship_acyclic {db db' : DB} {data : CreateRelationshipDto}
    {userId : String} {isAdmin : Bool} {r : Relationship}
    (h : AcyclicParent db.relationships)
    (hok : createRelationship db data userId isAdmin = Except.ok (db', r)) :
    AcyclicParent db'.relationships := by
  unfold createRelationship at hok
  cases hp1 : findPerson db data.person1Id with
  | none => rw [hp1] at hok; cases hok
  | some person1 =>
    cases hp2 : findPerson db data.person2Id with
    | none => rw [hp1, hp2] at hok; cases hok
    | some person2 =>
      rw [hp1, hp2] at hok
      dsimp only at hok
      by_cases hperm : ¬ isAdmin ∧ person1.createdById ≠ userId ∧ person2.createdById ≠ userId
      · rw [if_pos hperm] at hok; cases hok
      · rw [if_neg hperm] at hok
        by_cases hself : data.person1Id = data.person2Id
        · rw [if_pos hself] at hok; cases hok
        · rw [if_neg hself] at hok
          by_cases hdup : (findAnyRelBetween db.relationships data.person1Id data.person2Id).isSome
          · rw [if_pos hdup] at hok; cases hok
          · rw [if_neg hdup] at hok
            by_cases hcyc : data.relationshipType = RelType.PARENT ∧
                checkForCycle db.relationships data.person1Id data.person2Id
            · rw [if_pos hcyc] at hok; cases hok
            · rw [if_neg hcyc] at hok
              have hdb' : db' = propagateRel
                  (insertRel db data.person1Id data.person2Id data.relationshipType userId).1
                  data.person1Id data.person2Id data.relationshipType userId isAdmin := by
                cases hok; rfl
              subst hdb'
              apply propagateRel_acyclic
              by_cases ht : data.relationshipType = RelType.PARENT
              · have hnc : ¬ checkForCycle db.relationships data.person1Id data.person2Id := by
                  intro hc; exact hcyc ⟨ht, hc⟩
                simp only [insertRel]
                refine acyclic_append_parent h hself ?_
                intro hrch
                exact hnc ((checkForCycle_iff _ _ _).mpr hrch)
              · simp only [insertRel]
                intro x hx
                exact h x ((reaches_append_nonparent ht).mp hx)

theorem deleteRelationship_acyclic {db db' : DB} {id : Nat} {userId : String}
    {isAdmin : Bool} (h : AcyclicParent db.relationships)
    (hok : deleteRelationship db id userId isAdmin = Except.ok db') :
    AcyclicParent db'.relationships := by
  unfold deleteRelationship at hok
  cases hf : db.relationships.find? (fun r => r.id = id) with
  | none => rw [hf] at hok; cases hok
  | some relationship =>
    rw [hf] at hok
    dsimp only at hok
    by_cases hperm : ¬ isAdmin ∧ relationship.createdById ≠ userId
    · rw [if_pos hperm] at hok; cases hok
    · rw [if_neg hperm] at hok
      have hdb' : db' = { db with relationships := db.relationships.filter (fun r => ¬ r.id = id) } := by
        cases hok; rfl
      subst hdb'
      exact acyclic_of_sublist (fun r hr => (List.mem_filter.mp hr).1) h

theorem transGen_parentEdge_nil {a b : Nat}
    (h : Relation.TransGen (ParentEdge ([] : List Relationship)) a b) : False := by
  induction h with
  | single h => obtain ⟨r, hr, -⟩ := h; exact absurd hr (List.not_mem_nil r)
  | tail _ h _ => obtain ⟨r, hr, -⟩ := h; exact absurd hr (List.not_mem_nil r)

theorem acyclicParent_nil : AcyclicParent ([] : List Relationship) :=
  fun _ hx => (transGen_parentEdge_nil hx).elim

theorem c1_reachable_bad : Reachable c1Db6 := by
  have h0 : Reachable c1Db0 := Reachable.empty
  have h1 : Reachable c1Db1 := Reachable.createPerson "Al" "X" "u" h0
  have h2 : Reachable c1Db2 := Reachable.createPerson "Bo" "X" "u" h1
  have h3 : Reachable c1Db3 := Reachable.createPerson "Cy" "X" "u" h2
  have heq4 : createRelationship c1Db3 ⟨0, 1, RelType.PARENT⟩ "u" true =
      Except.ok (c1Db4, c1Rel4) := rfl
  have h4 : Reachable c1Db4 := Reachable.createRel h3 heq4
  have heq5 : createRelationship c1Db4 ⟨1, 2, RelType.PARENT⟩ "u" true =
      Except.ok (c1Db5, c1Rel5) := rfl
  have h5 : Reachable c1Db5 := Reachable.createRel h4 heq5
  exact Reachable.bulkImport [c1Entry] "u" h5

/-- C1 (counterexample): acyclicity of the PARENT sub-graph is NOT an invariant
of every successful mutation: from the reachable acyclic store with the chain
PARENT(Al,Bo), PARENT(Bo,Cy), the bulk batch `[{Al,X, related Cy X, PARENT}]`
succeeds and produces the PARENT cycle Al → Bo → Cy → Al — the bulk path
performs no cycle check. -/
theorem C1_counterexample : Reachable c1Db6 ∧ ¬ AcyclicParent c1Db6.relationships := by
  refine ⟨c1_reachable_bad, ?_⟩
  intro hacy
  have e01 : ParentEdge c1Db6.relationships 0 1 := by decide
  have e12 : ParentEdge c1Db6.relationships 1 2 := by decide
  have e20 : ParentEdge c1Db6.relationships 2 0 := by decide
  exact hacy 0
    (Relation.TransGen.tail (Relation.TransGen.tail (Relation.TransGen.single e01) e12) e20)

/-- C1 (amended): acyclicity of the PARENT sub-graph is preserved by every
successful `createRelationship` — including its propagation step, whose every
derived link re-runs the cycle check — and by every successful
`deleteRelationship`; bulk import batches are excluded, since their
relationship creation performs no cycle check (see the counterexample). -/
theorem C1_acyclicity_amended {db : DB} (h : AcyclicParent db.relationships) :
    (∀ (data : CreateRelationshipDto) (userId : String) (isAdmin : Bool)
      (db' : DB) (r : Relationship),
      createRelationship db data userId isAdmin = Except.ok (db', r) →
      AcyclicParent db'.relationships) ∧
    (∀ (id : Nat) (userId : String) (isAdmin : Bool) (db' : DB),
      deleteRelationship db id userId isAdmin = Except.ok db' →
      AcyclicParent db'.relationships) :=
  ⟨fun _ _ _ _ _ hok => createRelationship_acyclic h hok,
   fun _ _ _ _ hok => deleteRelationship_acyclic h hok⟩

/-- C1 (witness): the amended theorem applied to the concrete three-person
store with no relationships and the successful creation of PARENT(Al,Bo). -/
theorem C1_acyclicity_amended_witness :
    AcyclicParent c1Db3.relationships ∧ AcyclicParent c1Db4.relationships := by
  have hnil : c1Db3.relationships = [] := rfl
  have hacy : AcyclicParent c1Db3.relationships := by
    rw [hnil]; exact acyclicParent_nil
  exact ⟨hacy,
    (C1_acyclicity_amended hacy).1 ⟨0, 1, RelType.PARENT⟩ "u" true c1Db4 c1Rel4 rfl⟩

/-! ## Claim C2 -/
/-- C2: for every store containing PARENT(A,B) and PARENT(B,C), the proposed
parent C is a member of the computed strict-descendant set of the proposed
child A — the membership-of-descendants semantics of the check — so the cycle
check `checkForCycle(C,A)` (the `wouldCreateCycle` test) returns true, and —
whenever the earlier validation stages pass: both persons exist, the actor has
permission, C ≠ A, and no relationship exists between the pair —
`createRelationship(C,A,PARENT)` fails with the Cycle error, creating
nothing. -/
theorem C2_cycle_detection {db : DB} {A B C : Nat} {pc pa : Person}
    {userId : String} {isAdmin : Bool}
    (hAB : ParentEdge db.relationships A B) (hBC : ParentEdge db.relationships B C)
    (hpc : findPerson db C = some pc) (hpa : findPerson db A = some pa)
    (hperm : isAdmin = true ∨ pc.createdById = userId ∨ pa.createdById = userId)
    (hne : C ≠ A)
    (hnodup : findAnyRelBetween db.relationships C A = none) :
    C ∈ getAllDescendants db.relationships A ∧
    checkForCycle db.relationships C A = true ∧
    createRelationship db ⟨C, A, RelType.PARENT⟩ userId isAdmin =
      Except.error CreateError.cycle := by
  have hreach : Reaches db.relationships A C :=
    Relation.TransGen.tail (Relation.TransGen.single hAB) hBC
  have hchk : checkForCycle db.relationships C A = true := (checkForCycle_iff _ _ _).mpr hreach
  refine ⟨of_decide_eq_true hchk, hchk, ?_⟩
  unfold createRelationship
  dsimp only
  rw [hpc, hpa]
  dsimp only
  have hnotperm : ¬ (¬ isAdmin ∧ pc.createdById ≠ userId ∧ pa.createdById ≠ userId) := by
    rcases hperm with h | h | h
    · intro hcon; exact hcon.1 h
    · intro hcon; exact hcon.2.1 h
    · intro hcon; exact hcon.2.2 h
  rw [if_neg hnotperm, if_neg hne]
  have hdup : ¬ ((findAnyRelBetween db.relationships C A).isSome = true) := by
    rw [hnodup]; simp
  rw [if_neg hdup, if_pos ⟨rfl, hchk⟩]

/-- C2 (witness): the theorem applied to the concrete store with
PARENT(0,1), PARENT(1,2) and an attempt to create PARENT(2,0). -/
theorem C2_cycle_detection_witness :
    2 ∈ getAllDescendants c2Db.relationships 0 ∧
    checkForCycle c2Db.relationships 2 0 = true ∧
    createRelationship c2Db ⟨2, 0, RelType.PARENT⟩ "u" true =
      Except.error CreateError.cycle :=
  C2_cycle_detection (A := 0) (B := 1) (C := 2) (by decide) (by decide) rfl rfl
    (Or.inl rfl) (by decide) rfl

/-! ## Inversion and propagation lemmas for claims C3 and C4 -/
theorem mem_getParentIds_iff {rels : List Relationship} {x c : Nat} :
    x ∈ getParentIds rels c ↔ ParentEdge rels x c := by
  simp only [getParentIds, List.mem_map, List.mem_filter, ParentEdge, decide_eq_true_eq]
  constructor
  · rintro ⟨r, ⟨hr, h2, ht⟩, rfl⟩
    exact ⟨r, hr, ht, rfl, h2⟩
  · rintro ⟨r, hr, ht, h1, h2⟩
    exact ⟨r, ⟨hr, h2, ht⟩, h1⟩

theorem findParentRelBetween_isSome_of_edge {rels : List Relationship} {a b : Nat}
    (h : ParentEdge rels a b) : (findParentRelBetween rels a b).isSome = true := by
  obtain ⟨r, hr, ht, h1, h2⟩ := h
  unfold findParentRelBetween
  rw [List.find?_isSome]
  refine ⟨r, hr, ?_⟩
  simp [ht, h1, h2]

theorem checkForCycle_eq_false {rels : List Relationship} {p c : Nat}
    (h : checkForCycle rels p c = false) : ¬ Reaches rels c p := by
  intro hr
  rw [(checkForCycle_iff rels p c).mpr hr] at h
  cases h

/-- An `ensure` whose PARENT row already exists (in the forward direction)
leaves the store unchanged. -/
theorem createParentLinkIfMissing_of_edge {db : DB} {parentId childId : Nat}
    {userId : String} {isAdmin : Bool}
    (h : ParentEdge db.relationships parentId childId) :
    createParentLinkIfMissing db parentId childId userId isAdmin = db := by
  unfold createParentLinkIfMissing
  by_cases h1 : parentId = childId
  · rw [if_pos h1]
  · rw [if_neg h1]
    dsimp only
    by_cases h2 : (if isAdmin then true
        else
          match findPerson db parentId, findPerson db childId with
          | some parent, some child =>
              decide (parent.createdById = userId) && decide (child.createdById = userId)
          | _, _ => false) = false
    · rw [if_pos h2]
    · rw [if_neg h2, if_pos (findParentRelBetween_isSome_of_edge h)]

/-- Success of `createRelationship` pins down the resulting store: the row is
appended, then the propagator runs. -/
theorem createRelationship_ok_inv {db db' : DB} {data : CreateRelationshipDto}
    {userId : String} {isAdmin : Bool} {r : Relationship}
    (hok : createRelationship db data userId isAdmin = Except.ok (db', r)) :
    db' = propagateRel
        (insertRel db data.person1Id data.person2Id data.relationshipType userId).1
        data.person1Id data.person2Id data.relationshipType userId isAdmin ∧
      r = (insertRel db data.person1Id data.person2Id data.relationshipType userId).2 := by
  unfold createRelationship at hok
  cases hp1 : findPerson db data.person1Id with
  | none => rw [hp1] at hok; cases hok
  | some person1 =>
    cases hp2 : findPerson db data.person2Id with
    | none => rw [hp1, hp2] at hok; cases hok
    | some person2 =>
      rw [hp1, hp2] at hok
      dsimp only at hok
      by_cases hperm : ¬ isAdmin ∧ person1.createdById ≠ userId ∧ person2.createdById ≠ userId
      · rw [if_pos hperm] at hok; cases hok
      · rw [if_neg hperm] at hok
        by_cases hself : data.person1Id = data.person2Id
        · rw [if_pos hself] at hok; cases hok
        · rw [if_neg hself] at hok
          by_cases hdup : (findAnyRelBetween db.relationships data.person1Id data.person2Id).isSome
          · rw [if_pos hdup] at hok; cases hok
          · rw [if_neg hdup] at hok
            by_cases hcyc : data.relationshipType = RelType.PARENT ∧
                checkForCycle db.relationships data.person1Id data.person2Id
            · rw [if_pos hcyc] at hok; cases hok
            · rw [if_neg hcyc] at hok
              cases hok
              exact ⟨rfl, rfl⟩

theorem getParentIds_append_nonparent {rels : List Relationship} {r : Relationship}
    {c : Nat} (ht : r.relationshipType ≠ RelType.PARENT) :
    getParentIds (rels ++ [r]) c = getParentIds rels c := by
  unfold getParentIds
  rw [List.filter_append]
  have : List.filter (fun s => decide (s.person2Id = c ∧ s.relationshipType = RelType.PARENT)) [r]
      = [] := by
    simp [ht]
  rw [this, List.append_nil]

theorem findParentRelBetween_append_nonparent {rels : List Relationship}
    {r : Relationship} {a b : Nat} (ht : r.relationshipType ≠ RelType.PARENT)
    (h : findParentRelBetween rels a b = none) :
    findParentRelBetween (rels ++ [r]) a b = none := by
  unfold findParentRelBetween at *
  rw [List.find?_append, h]
  simp [ht]

/-- C3 (counterexample): PARENT(P,A) exists, a non-admin actor who created both
A and B (but not P) successfully creates SIBLING(A,B), yet PARENT(P,B) does NOT
exist afterwards — the derived "ensure" does not go through the primary
pipeline's at-least-one-of-the-two permission rule: `createParentLinkIfMissing`
requires the non-admin actor to have created BOTH endpoints, so the derived
edge is silently skipped. -/
theorem C3_counterexample :
    createRelationship c3Db ⟨1, 2, RelType.SIBLING⟩ "u" false = Except.ok (c3Db', c3Rel') ∧
    ParentEdge c3Db.relationships 0 1 ∧
    ¬ ParentEdge c3Db'.relationships 0 2 := by
  refine ⟨rfl, by decide, by decide⟩

/-- C4 (counterexample): the implementation checks permission BEFORE the
self-relationship guard: for a self-request on an existing person by a
non-admin actor who did not create the person, `createRelationship` fails with
PermissionDenied, not SelfRelationship. -/
theorem C4_counterexample :
    createRelationship c4Db ⟨0, 0, RelType.SPOUSE⟩ "u" false =
      Except.error CreateError.permissionDenied ∧
    createRelationship c4Db ⟨0, 0, RelType.SPOUSE⟩ "u" false ≠
      Except.error CreateError.selfRelationship := by
  refine ⟨rfl, ?_⟩
  intro h
  have h2 : CreateError.permissionDenied = CreateError.selfRelationship := by
    have h1 : createRelationship c4Db ⟨0, 0, RelType.SPOUSE⟩ "u" false =
        Except.error CreateError.permissionDenied := rfl
    injection (h1.symm.trans h)
  cases h2

/-- C4 (amended): the implemented validation order is existence, then
permission, then self-relationship, then uniqueness, then cycle.  For a
self-request on an existing person: admin actors and the person's creator get
the SelfRelationship error, while any other non-admin actor gets
PermissionDenied. -/
theorem C4_validation_order_amended {db : DB} {pid : Nat} {p : Person}
    {userId : String} {isAdmin : Bool} {t : RelType}
    (hp : findPerson db pid = some p) :
    ((isAdmin = true ∨ p.createdById = userId) →
      createRelationship db ⟨pid, pid, t⟩ userId isAdmin =
        Except.error CreateError.selfRelationship) ∧
    ((isAdmin = false ∧ p.createdById ≠ userId) →
      createRelationship db ⟨pid, pid, t⟩ userId isAdmin =
        Except.error CreateError.permissionDenied) := by
  constructor
  · intro hyes
    unfold createRelationship
    dsimp only
    rw [hp]
    dsimp only
    have hnotperm : ¬ (¬ isAdmin ∧ p.createdById ≠ userId ∧ p.createdById ≠ userId) := by
      rcases hyes with h | h
      · intro hcon; exact hcon.1 h
      · intro hcon; exact hcon.2.1 h
    rw [if_neg hnotperm, if_pos rfl]
  · intro hno
    unfold createRelationship
    dsimp only
    rw [hp]
    dsimp only
    rw [if_pos ⟨by simp [hno.1], hno.2, hno.2⟩]

/-! ## Claim C10 -/
theorem bulkCPLIM_len {db : DB} {p c : Nat} {u : String} {count N : Nat}
    (h : db.relationships.length = N + count) :
    (bulkCreateParentLinkIfMissing db p c u count).1.relationships.length =
      N + (bulkCreateParentLinkIfMissing db p c u count).2 := by
  unfold bulkCreateParentLinkIfMissing
  by_cases h1 : p = c
  · rw [if_pos h1]; exact h
  · rw [if_neg h1]
    by_cases h2 : (findParentRelBetween db.relationships p c).isSome
    · rw [if_pos h2]; exact h
    · rw [if_neg h2]
      dsimp only [insertRel]
      simp only [List.length_append, List.length_singleton, h]
      omega

theorem bulkResolvePerson_rels (userId : String) (st : BulkSt) (entry : BulkImportEntry) :
    (bulkResolvePerson userId st entry).1.db.relationships = st.db.relationships ∧
    (bulkResolvePerson userId st entry).1.relationshipsCreated = st.relationshipsCreated := by
  unfold bulkResolvePerson
  dsimp only
  cases hm : mapGet st.nameMap (nameKey entry.firstName entry.lastName) with
  | some pid => exact ⟨rfl, rfl⟩
  | none => exact ⟨rfl, rfl⟩

theorem bulkRelationPhase_len {userId : String} {N : Nat} (st1 : BulkSt)
    (newPersonId : Nat) (entry : BulkImportEntry)
    (h : st1.db.relationships.length = N + st1.relationshipsCreated) :
    (bulkRelationPhase userId st1 newPersonId entry).db.relationships.length =
      N + (bulkRelationPhase userId st1 newPersonId entry).relationshipsCreated := by
  unfold bulkRelationPhase
  cases hf : entry.relatedFirstName with
  | none => exact h
  | some relatedFirst =>
    cases hl : entry.relatedLastName with
    | none => exact h
    | some relatedLast =>
      cases ht : entry.relationshipType with
      | none => exact h
      | some rt =>
        dsimp only
        cases hm : mapGet st1.nameMap (nameKey relatedFirst relatedLast) with
        | none => exact h
        | some relatedPersonId =>
          dsimp only
          by_cases hself : newPersonId = relatedPersonId
          · rw [if_pos hself]; exact h
          · rw [if_neg hself]
            by_cases hex :
                (findAnyRelBetween st1.db.relationships newPersonId relatedPersonId).isSome
            · rw [if_pos hex]; exact h
            · rw [if_neg hex]
              dsimp only
              have hbase : ∀ (dbx : DB),
                  dbx.relationships.length = st1.db.relationships.length + 1 →
                  dbx.relationships.length = N + (st1.relationshipsCreated + 1) := by
                intro dbx hx
                omega
              have hfold : ∀ (l : List Nat) (f : DB × Nat → Nat → DB × Nat)
                  (hstep : ∀ x a, a ∈ l → x.1.relationships.length = N + x.2 →
                    (f x a).1.relationships.length = N + (f x a).2)
                  (x : DB × Nat), x.1.relationships.length = N + x.2 →
                  (l.foldl f x).1.relationships.length = N + (l.foldl f x).2 := by
                intro l f hstep x hx
                exact foldlInv (fun y : DB × Nat => y.1.relationships.length = N + y.2)
                  f l x hstep hx
              cases rt with
              | SIBLING =>
                refine hfold _ _ ?_ _ (hbase _ (by simp [insertRel]))
                intro x a _ hx
                exact bulkCPLIM_len (bulkCPLIM_len hx)
              | SPOUSE =>
                refine hfold _ _ ?_ _ ?_
                · intro x a _ hx
                  exact bulkCPLIM_len hx
                · refine hfold _ _ ?_ _ (hbase _ (by simp [insertRel]))
                  intro x a _ hx
                  exact bulkCPLIM_len hx
              | PARENT =>
                refine hfold _ _ ?_ _ (hbase _ (by simp [insertRel]))
                intro x a _ hx
                exact bulkCPLIM_len hx
              | CHILD =>
                refine hfold _ _ ?_ _ (hbase _ (by simp [insertRel]))
                intro x a _ hx
                exact bulkCPLIM_len hx

theorem bulkProcessEntry_len {userId : String} {N : Nat}
    (st : BulkSt) (entry : BulkImportEntry)
    (h : st.db.relationships.length = N + st.relationshipsCreated) :
    (bulkProcessEntry userId st entry).db.relationships.length =
      N + (bulkProcessEntry userId st entry).relationshipsCreated := by
  unfold bulkProcessEntry
  dsimp only
  refine bulkRelationPhase_len _ _ _ ?_
  obtain ⟨h1, h2⟩ := bulkResolvePerson_rels userId st entry
  rw [h1, h2]
  exact h

/-- C10: for every bulk batch, the returned `relationshipsCreated` equals the
total number of relationship rows inserted during the batch — the direct
per-entry insertion and every derived PARENT row inserted by the smart linking
each increment the counter exactly when they append a row, and nothing else
touches the relationships table. -/
theorem C10_relationships_created_count (db : DB) (entries : List BulkImportEntry)
    (userId : String) :
    (bulkCreatePersonsWithRelationships db entries userId).1.relationships.length =
      db.relationships.length +
        (bulkCreatePersonsWithRelationships db entries userId).2.2 := by
  unfold bulkCreatePersonsWithRelationships
  dsimp only
  exact foldlInv
    (fun st : BulkSt =>
      st.db.relationships.length = db.relationships.length + st.relationshipsCreated)
    (bulkProcessEntry userId) entries _
    (fun st e _ h => bulkProcessEntry_len st e h) (by simp)

/-! ## Claim C7: name-index and freshness lemmas -/
theorem mapGet_cons {k' : String} {v : Nat} {m : List (String × Nat)} {k : String} :
    mapGet ((k', v) :: m) k = if k' = k then some v else mapGet m k := by
  unfold mapGet
  by_cases h : k' = k
  · rw [if_pos h, List.find?_cons_of_pos _ (by simpa using h)]
    rfl
  · rw [if_neg h, List.find?_cons_of_neg _ (by simpa using h)]

theorem buildNameMap_mem {persons : List Person} {e : String × Nat}
    (h : e ∈ buildNameMap persons) :
    ∃ p ∈ persons, e = (nameKey p.firstName p.lastName, p.id) := by
  unfold buildNameMap at h
  suffices haux : ∀ (l : List Person) (m : List (String × Nat)),
      e ∈ l.foldl (fun m p => mapSet m (nameKey p.firstName p.lastName) p.id) m →
      e ∈ m ∨ ∃ p ∈ l, e = (nameKey p.firstName p.lastName, p.id) by
    rcases haux persons [] h with h' | h'
    · cases h'
    · exact h'
  intro l
  induction l with
  | nil => intro m hm; exact Or.inl hm
  | cons p l ih =>
    intro m hm
    rcases ih _ hm with h' | ⟨q, hq, he⟩
    · rcases List.mem_cons.mp h' with he | h''
      · exact Or.inr ⟨p, List.mem_cons_self p l, he⟩
      · exact Or.inl h''
    · exact Or.inr ⟨q, List.mem_cons_of_mem p hq, he⟩

theorem mapGet_buildNameMap_none {persons : List Person} {k : String}
    (h : ∀ p ∈ persons, nameKey p.firstName p.lastName ≠ k) :
    mapGet (buildNameMap persons) k = none := by
  unfold mapGet
  rw [List.find?_eq_none.mpr]
  · rfl
  · intro e he
    obtain ⟨p, hp, rfl⟩ := buildNameMap_mem he
    simpa using h p hp

theorem findAnyRelBetween_none_of_fresh {rels : List Relationship} {m a b : Nat}
    (hwf : ∀ r ∈ rels, r.person1Id < m ∧ r.person2Id < m) (ha : m ≤ a) :
    findAnyRelBetween rels a b = none := by
  unfold findAnyRelBetween
  rw [List.find?_eq_none]
  intro r hr
  obtain ⟨h1, h2⟩ := hwf r hr
  simp only [decide_eq_true_eq, not_or, not_and]
  constructor
  · intro hp1; omega
  · intro hp1 hp2; omega

theorem getSpouseIds_nil_of_fresh {rels : List Relationship} {m x : Nat}
    (hwf : ∀ r ∈ rels, r.relationshipType = RelType.SPOUSE →
      r.person1Id < m ∧ r.person2Id < m)
    (hx : m ≤ x) : getSpouseIds rels x = [] := by
  unfold getSpouseIds
  rw [List.filter_eq_nil_iff.mpr, List.map_nil]
  intro r hr
  simp only [decide_eq_true_eq, not_and, not_or]
  intro ht
  obtain ⟨h1, h2⟩ := hwf r hr ht
  constructor
  · intro hp1; omega
  · intro hp2; omega

/-- C7: starting from a store holding no person named John Doe or Jane Doe
(case-insensitively), the bulk batch `[{John,Doe}, {Jane,Doe, related John
Doe, CHILD}]` creates exactly two persons and exactly one relationship —
PARENT with Jane as person1 (parent) and John as person2 (child): the bulk
CHILD vocabulary is translated to the inverse canonical PARENT direction.
Dually (second conjunct), with relationshipType PARENT the entry person Jane
becomes the child: person1 John, person2 Jane. -/
theorem C7_bulk_child_direction {db : DB} {userId : String}
    (hwfr : ∀ r ∈ db.relationships,
      r.person1Id < db.personCounter ∧ r.person2Id < db.personCounter)
    (hjohn : ∀ p ∈ db.persons, nameKey p.firstName p.lastName ≠ nameKey "John" "Doe")
    (hjane : ∀ p ∈ db.persons, nameKey p.firstName p.lastName ≠ nameKey "Jane" "Doe") :
    (bulkCreatePersonsWithRelationships db
        [⟨"John", "Doe", none, none, none⟩,
         ⟨"Jane", "Doe", some "John", some "Doe", some BulkRelType.CHILD⟩] userId) =
      ({ db with
          persons := db.persons ++ [⟨db.personCounter, "John", "Doe", userId⟩,
            ⟨db.personCounter + 1, "Jane", "Doe", userId⟩],
          relationships := db.relationships ++
            [⟨db.relCounter, db.personCounter + 1, db.personCounter, RelType.PARENT, userId⟩],
          personCounter := db.personCounter + 2,
          relCounter := db.relCounter + 1 },
       [⟨db.personCounter, "John", "Doe", userId⟩,
        ⟨db.personCounter + 1, "Jane", "Doe", userId⟩],
       1) ∧
    (bulkCreatePersonsWithRelationships db
        [⟨"John", "Doe", none, none, none⟩,
         ⟨"Jane", "Doe", some "John", some "Doe", some BulkRelType.PARENT⟩] userId) =
      ({ db with
          persons := db.persons ++ [⟨db.personCounter, "John", "Doe", userId⟩,
            ⟨db.personCounter + 1, "Jane", "Doe", userId⟩],
          relationships := db.relationships ++
            [⟨db.relCounter, db.personCounter, db.personCounter + 1, RelType.PARENT, userId⟩],
          personCounter := db.personCounter + 2,
          relCounter := db.relCounter + 1 },
       [⟨db.personCounter, "John", "Doe", userId⟩,
        ⟨db.personCounter + 1, "Jane", "Doe", userId⟩],
       1) := by
  have hmj : mapGet (buildNameMap db.persons) (nameKey "John" "Doe") = none :=
    mapGet_buildNameMap_none hjohn
  have hmj2 : mapGet (buildNameMap db.persons) (nameKey "Jane" "Doe") = none :=
    mapGet_buildNameMap_none hjane
  have hany : findAnyRelBetween db.relationships (db.personCounter + 1) db.personCounter = none :=
    findAnyRelBetween_none_of_fresh hwfr (by omega)
  have hne1 : nameKey "John" "Doe" ≠ nameKey "Jane" "Doe" := by decide
  have hne1s : nameKey "Jane" "Doe" ≠ nameKey "John" "Doe" := by decide
  have hne2 : ¬ (db.personCounter + 1 = db.personCounter) := by omega
  constructor
  · have hsp : getSpouseIds (db.relationships ++
        [⟨db.relCounter, db.personCounter + 1, db.personCounter, RelType.PARENT, userId⟩])
        (db.personCounter + 1) = [] := by
      apply getSpouseIds_nil_of_fresh (m := db.personCounter)
      · intro r hr ht
        rcases List.mem_append.mp hr with h | h
        · exact hwfr r h
        · rcases List.mem_singleton.mp h with rfl
          cases ht
      · omega
    unfold bulkCreatePersonsWithRelationships
    simp only [List.foldl_cons, List.foldl_nil]
    unfold bulkProcessEntry bulkResolvePerson bulkRelationPhase
    simp only [hmj, hmj2, mapSet, mapGet_cons, insertPerson, insertRel, hany, hsp,
      if_neg hne1, if_neg hne1s, if_pos rfl, List.foldl_nil]
    simp [hne2, hsp, hany]
  · have hsp : getSpouseIds (db.relationships ++
        [⟨db.relCounter, db.personCounter, db.personCounter + 1, RelType.PARENT, userId⟩])
        db.personCounter = [] := by
      apply getSpouseIds_nil_of_fresh (m := db.personCounter)
      · intro r hr ht
        rcases List.mem_append.mp hr with h | h
        · exact hwfr r h
        · rcases List.mem_singleton.mp h with rfl
          cases ht
      · omega
    unfold bulkCreatePersonsWithRelationships
    simp only [List.foldl_cons, List.foldl_nil]
    unfold bulkProcessEntry bulkResolvePerson bulkRelationPhase
    simp only [hmj, hmj2, mapSet, mapGet_cons, insertPerson, insertRel, hany, hsp,
      if_neg hne1, if_neg hne1s, if_pos rfl, List.foldl_nil]
    simp [hne2, hsp, hany]

/-- C7 (witness): the theorem applied to the empty store. -/
theorem C7_bulk_child_direction_witness :
    (bulkCreatePersonsWithRelationships (⟨[], [], 0, 0⟩ : DB)
        [⟨"John", "Doe", none, none, none⟩,
         ⟨"Jane", "Doe", some "John", some "Doe", some BulkRelType.CHILD⟩] "u") =
      (⟨[⟨0, "John", "Doe", "u"⟩, ⟨1, "Jane", "Doe", "u"⟩],
        [⟨0, 1, 0, RelType.PARENT, "u"⟩], 2, 1⟩,
       [⟨0, "John", "Doe", "u"⟩, ⟨1, "Jane", "Doe", "u"⟩], 1) := by
  have h := @C7_bulk_child_direction ⟨[], [], 0, 0⟩ "u"
    (fun r hr => absurd hr (List.not_mem_nil r))
    (fun p hp => absurd hp (List.not_mem_nil p))
    (fun p hp => absurd hp (List.not_mem_nil p))
  exact h.1

/-- C9 (counterexample): `normalizeRelationships` is not idempotent.  Store:
SPOUSE(B,F), SPOUSE(A,B), PARENT(A,C) in that stored order.  The first run,
processing SPOUSE(B,F) first (B has no children yet), derives only PARENT(B,C)
(from SPOUSE(A,B)); the second run re-processes SPOUSE(B,F), now sees child C
of B, and creates a NEW relationship PARENT(F,C): one new row on the second
run, not zero. -/
theorem C9_counterexample :
    (normalizeRelationships c9Db "u" true).relationships.length = 4 ∧
    (normalizeRelationships (normalizeRelationships c9Db "u" true) "u"
      true).relationships.length = 5 := by
  exact ⟨rfl, rfl⟩

theorem createParentLinkIfMissing_pairOnce (db : DB) (parentId childId : Nat)
    (userId : String) (isAdmin : Bool) (h : ParentOncePerPair db.relationships) :
    ParentOncePerPair
      (createParentLinkIfMissing db parentId childId userId isAdmin).relationships := by
  unfold createParentLinkIfMissing
  by_cases h1 : parentId = childId
  · rw [if_pos h1]; exact h
  · rw [if_neg h1]
    dsimp only
    by_cases h2 : (if isAdmin then true
        else
          match findPerson db parentId, findPerson db childId with
          | some parent, some child =>
              decide (parent.createdById = userId) && decide (child.createdById = userId)
          | _, _ => false) = false
    · rw [if_pos h2]; exact h
    · rw [if_neg h2]
      by_cases h3 : (findParentRelBetween db.relationships parentId childId).isSome
      · rw [if_pos h3]; exact h
      · rw [if_neg h3]
        by_cases h4 : checkForCycle db.relationships parentId childId
        · rw [if_pos h4]; exact h
        · rw [if_neg h4]
          dsimp only [insertRel]
          unfold ParentOncePerPair at h ⊢
          rw [List.pairwise_append]
          refine ⟨h, List.pairwise_singleton _ _, ?_⟩
          intro r hr s hs
          rcases List.mem_singleton.mp hs with rfl
          have hnone : findParentRelBetween db.relationships parentId childId = none :=
            Option.not_isSome_iff_eq_none.mp h3
          rw [findParentRelBetween, List.find?_eq_none] at hnone
          have hne := hnone r hr
          simp only [decide_eq_true_eq] at hne
          intro hcon
          exact hne ⟨hcon.1, hcon.2.2⟩

theorem propagateRel_pairOnce (db : DB) (p1 p2 : Nat) (t : RelType) (userId : String)
    (isAdmin : Bool) (h : ParentOncePerPair db.relationships) :
    ParentOncePerPair (propagateRel db p1 p2 t userId isAdmin).relationships := by
  unfold propagateRel
  cases t with
  | SIBLING =>
    refine foldlInv (fun d : DB => ParentOncePerPair d.relationships) _ _ _ ?_ h
    intro d a _ hd
    exact createParentLinkIfMissing_pairOnce _ _ _ _ _
      (createParentLinkIfMissing_pairOnce _ _ _ _ _ hd)
  | SPOUSE =>
    refine foldlInv (fun d : DB => ParentOncePerPair d.relationships) _ _ _ ?_ ?_
    · intro d a _ hd
      exact createParentLinkIfMissing_pairOnce _ _ _ _ _ hd
    · refine foldlInv (fun d : DB => ParentOncePerPair d.relationships) _ _ _ ?_ h
      intro d a _ hd
      exact createParentLinkIfMissing_pairOnce _ _ _ _ _ hd
  | PARENT =>
    refine foldlInv (fun d : DB => ParentOncePerPair d.relationships) _ _ _ ?_ h
    intro d a _ hd
    exact createParentLinkIfMissing_pairOnce _ _ _ _ _ hd

/-- C9 (amended): the sweep is not idempotent in the zero-new-rows sense (see
the counterexample), but it does satisfy the spec's §4.2 duplicate guarantee:
it never creates a PARENT row between a pair that already has one, so the
at-most-one-PARENT-row-per-unordered-pair invariant is preserved by every run,
in particular by repeated runs. -/
theorem C9_normalize_no_duplicates {db : DB} {userId : String} {isAdmin : Bool}
    (h : ParentOncePerPair db.relationships) :
    ParentOncePerPair (normalizeRelationships db userId isAdmin).relationships ∧
    ParentOncePerPair
      (normalizeRelationships (normalizeRelationships db userId isAdmin) userId
        isAdmin).relationships := by
  have hstep : ∀ (d : DB), ParentOncePerPair d.relationships →
      ParentOncePerPair (normalizeRelationships d userId isAdmin).relationships := by
    intro d hd
    unfold normalizeRelationships
    exact foldlInv (fun x : DB => ParentOncePerPair x.relationships) _ _ _
      (fun x a _ hx => propagateRel_pairOnce _ _ _ _ _ _ hx) hd
  exact ⟨hstep db h, hstep _ (hstep db h)⟩

/-- C9 (witness): the no-duplicates theorem applied to the concrete store of
the counterexample. -/
theorem C9_normalize_no_duplicates_witness :
    ParentOncePerPair (normalizeRelationships c9Db "u" true).relationships ∧
    ParentOncePerPair
      (normalizeRelationships (normalizeRelationships c9Db "u" true) "u"
        true).relationships :=
  C9_normalize_no_duplicates (by decide)

/-! ## Union-find correctness -/
theorem mem_eraseDupsLoop {α : Type _} [BEq α] [LawfulBEq α] (x : α) :
    ∀ (l acc : List α), x ∈ List.eraseDups.loop l acc ↔ x ∈ l ∨ x ∈ acc := by
  intro l
  induction l with
  | nil =>
    intro acc
    simp [List.eraseDups.loop]
  | cons a as ih =>
    intro acc
    simp only [List.eraseDups.loop]
    cases he : acc.elem a with
    | true =>
      rw [ih acc]
      have ha : a ∈ acc := List.mem_of_elem_eq_true he
      constructor
      · rintro (h | h)
        · exact Or.inl (List.mem_cons_of_mem a h)
        · exact Or.inr h
      · rintro (h | h)
        · rcases List.mem_cons.mp h with rfl | h2
          · exact Or.inr ha
          · exact Or.inl h2
        · exact Or.inr h
    | false =>
      rw [ih (a :: acc)]
      constructor
      · rintro (h | h)
        · exact Or.inl (List.mem_cons_of_mem a h)
        · rcases List.mem_cons.mp h with rfl | h2
          · exact Or.inl (List.mem_cons_self _ _)
          · exact Or.inr h2
      · rintro (h | h)
        · rcases List.mem_cons.mp h with rfl | h2
          · exact Or.inr (List.mem_cons_self _ _)
          · exact Or.inl h2
        · exact Or.inr (List.mem_cons_of_mem a h)

theorem mem_eraseDups {α : Type _} [BEq α] [LawfulBEq α] {x : α} {l : List α} :
    x ∈ l.eraseDups ↔ x ∈ l := by
  unfold List.eraseDups
  rw [mem_eraseDupsLoop]
  simp

theorem ufLookup_cons {k v x : Nat} {m : List (Nat × Nat)} :
    ufLookup ((k, v) :: m) x = if k = x then some v else ufLookup m x := by
  unfold ufLookup
  by_cases h : k = x
  · rw [if_pos h, List.find?_cons_of_pos _ (by simpa using h)]
    rfl
  · rw [if_neg h, List.find?_cons_of_neg _ (by simpa using h)]

theorem ufChainN_lift {m : List (Nat × Nat)} {k v : Nat}
    (hk : ufLookup m k = none) (hv : ufLookup m v = none) (hkv : k ≠ v) :
    ∀ {x r n : Nat}, UFChainN m x r n →
      UFChainN ((k, v) :: m) x (if r = k then v else r) (if r = k then n + 1 else n) := by
  intro x r n h
  induction h with
  | root hx =>
    rename_i y
    by_cases hyk : y = k
    · subst hyk
      rw [if_pos rfl, if_pos rfl]
      refine UFChainN.step (p := v) ?_ ?_ ?_
      · rw [ufLookup_cons, if_pos rfl]
      · exact fun h => hkv h.symm
      · refine UFChainN.root ?_
        rw [ufLookup_cons, if_neg (fun h => hkv h)]
        exact hv
    · rw [if_neg hyk, if_neg hyk]
      refine UFChainN.root ?_
      rw [ufLookup_cons, if_neg (fun h => hyk h.symm)]
      exact hx
  | step hx hpx _ ih =>
    rename_i y p r' n' hch
    have hyk : y ≠ k := by
      intro h
      subst h
      rw [hk] at hx
      cases hx
    have hlift : ufLookup ((k, v) :: m) y = some p := by
      rw [ufLookup_cons, if_neg (fun h => hyk h.symm)]
      exact hx
    have hstep := UFChainN.step hlift hpx ih
    by_cases h : r' = k
    · simpa [h] using hstep
    · simpa [h] using hstep

theorem ufChainN_exists {m : List (Nat × Nat)} (hm : GoodUF m) :
    ∀ x, ∃ r n, UFChainN m x r n ∧ n ≤ m.length := by
  induction hm with
  | nil =>
    intro x
    exact ⟨x, 0, UFChainN.root rfl, Nat.le_refl 0⟩
  | cons hm hk hv hkv ih =>
    rename_i m' k v
    intro x
    obtain ⟨r, n, hch, hn⟩ := ih x
    refine ⟨if r = k then v else r, if r = k then n + 1 else n,
      ufChainN_lift hk hv hkv hch, ?_⟩
    by_cases h : r = k
    · rw [if_pos h]; simpa using Nat.succ_le_succ hn
    · rw [if_neg h]
      simp only [List.length_cons]
      omega

theorem ufChainN_root_none {m : List (Nat × Nat)} {x r n : Nat}
    (h : UFChainN m x r n) : ufLookup m r = none := by
  induction h with
  | root hx => exact hx
  | step _ _ _ ih => exact ih

theorem ufFind_of_chainN {m : List (Nat × Nat)} :
    ∀ {n x r : Nat}, UFChainN m x r n → ∀ {fuel : Nat}, n < fuel →
      ufFind m fuel x = r := by
  intro n x r h
  induction h with
  | root hx =>
    intro fuel hf
    cases fuel with
    | zero => omega
    | succ f => simp only [ufFind, hx]
  | step hx hpx _ ih =>
    rename_i y p r' n' hch
    intro fuel hf
    cases fuel with
    | zero => omega
    | succ f =>
      simp only [ufFind, hx, if_neg hpx]
      exact ih (by omega)

theorem ufFind_root {m : List (Nat × Nat)} (hm : GoodUF m) {fuel x : Nat}
    (hf : m.length < fuel) :
    ufLookup m (ufFind m fuel x) = none := by
  obtain ⟨r, n, hch, hn⟩ := ufChainN_exists hm x
  rw [ufFind_of_chainN hch (by omega)]
  exact ufChainN_root_none hch

theorem ufFind_fuel_irrel {m : List (Nat × Nat)} (hm : GoodUF m) (f1 f2 x : Nat)
    (h1 : m.length < f1) (h2 : m.length < f2) :
    ufFind m f1 x = ufFind m f2 x := by
  obtain ⟨r, n, hch, hn⟩ := ufChainN_exists hm x
  rw [ufFind_of_chainN hch (by omega), ufFind_of_chainN hch (by omega)]

theorem ufFind_cons {m : List (Nat × Nat)} (hm : GoodUF m) {k v : Nat}
    (hk : ufLookup m k = none) (hv : ufLookup m v = none) (hkv : k ≠ v)
    {fuel x : Nat} (hf : m.length + 1 < fuel) :
    ufFind ((k, v) :: m) fuel x = (if ufFind m fuel x = k then v else ufFind m fuel x) := by
  obtain ⟨r, n, hch, hn⟩ := ufChainN_exists hm x
  rw [ufFind_of_chainN hch (by omega)]
  have hch2 := ufChainN_lift hk hv hkv hch
  rw [ufFind_of_chainN hch2 (by by_cases h : r = k <;> simp [h] <;> omega)]

theorem ufUnion_good {m : List (Nat × Nat)} (hm : GoodUF m) {fuel a b : Nat}
    (hf : m.length < fuel) :
    GoodUF (ufUnion m fuel a b) ∧ (ufUnion m fuel a b).length ≤ m.length + 1 := by
  unfold ufUnion
  by_cases h : ufFind m fuel b = ufFind m fuel a
  · rw [if_pos h]
    exact ⟨hm, Nat.le_succ _⟩
  · rw [if_neg h]
    exact ⟨GoodUF.cons hm (ufFind_root hm hf) (ufFind_root hm hf) h,
      by simp⟩

theorem ufUnion_find_eq {m : List (Nat × Nat)} (hm : GoodUF m) {fuel a b x y : Nat}
    (hf : m.length + 1 < fuel)
    (hxy : ufFind m fuel x = ufFind m fuel y) :
    ufFind (ufUnion m fuel a b) fuel x = ufFind (ufUnion m fuel a b) fuel y := by
  unfold ufUnion
  by_cases h : ufFind m fuel b = ufFind m fuel a
  · rw [if_pos h]; exact hxy
  · rw [if_neg h, ufFind_cons hm (ufFind_root hm (by omega)) (ufFind_root hm (by omega)) h hf,
      ufFind_cons hm (ufFind_root hm (by omega)) (ufFind_root hm (by omega)) h hf, hxy]

theorem ufUnion_find_pair {m : List (Nat × Nat)} (hm : GoodUF m) {fuel a b : Nat}
    (hf : m.length + 1 < fuel) :
    ufFind (ufUnion m fuel a b) fuel a = ufFind (ufUnion m fuel a b) fuel b := by
  unfold ufUnion
  by_cases h : ufFind m fuel b = ufFind m fuel a
  · rw [if_pos h]; exact h.symm
  · rw [if_neg h, ufFind_cons hm (ufFind_root hm (by omega)) (ufFind_root hm (by omega)) h hf,
      ufFind_cons hm (ufFind_root hm (by omega)) (ufFind_root hm (by omega)) h hf]
    rw [if_neg (fun hc => h hc.symm), if_pos rfl]

theorem buildUFAux_good {fuel : Nat} :
    ∀ (l m : List (Nat × Nat)), GoodUF m → m.length + l.length < fuel →
      GoodUF (l.foldl (fun m pr => ufUnion m fuel pr.1 pr.2) m) ∧
      (l.foldl (fun m pr => ufUnion m fuel pr.1 pr.2) m).length ≤ m.length + l.length := by
  intro l
  induction l with
  | nil =>
    intro m hm _
    exact ⟨hm, by simp⟩
  | cons pr l ih =>
    intro m hm hf
    simp only [List.foldl_cons, List.length_cons] at *
    obtain ⟨hg, hlen⟩ := @ufUnion_good m hm fuel pr.1 pr.2 (by omega)
    obtain ⟨hg2, hlen2⟩ := ih (ufUnion m fuel pr.1 pr.2) hg (by omega)
    exact ⟨hg2, by omega⟩

theorem buildUFAux_eq {fuel x y : Nat} :
    ∀ (l m : List (Nat × Nat)), GoodUF m → m.length + l.length < fuel →
      ufFind m fuel x = ufFind m fuel y →
      ufFind (l.foldl (fun m pr => ufUnion m fuel pr.1 pr.2) m) fuel x =
        ufFind (l.foldl (fun m pr => ufUnion m fuel pr.1 pr.2) m) fuel y := by
  intro l
  induction l with
  | nil =>
    intro m _ _ hxy
    exact hxy
  | cons pr l ih =>
    intro m hm hf hxy
    simp only [List.foldl_cons, List.length_cons] at *
    obtain ⟨hg, hlen⟩ := @ufUnion_good m hm fuel pr.1 pr.2 (by omega)
    exact ih _ hg (by omega) (ufUnion_find_eq hm (by omega) hxy)

theorem buildUFAux_pair {fuel : Nat} :
    ∀ (l m : List (Nat × Nat)), GoodUF m → m.length + l.length < fuel →
      ∀ pr ∈ l,
        ufFind (l.foldl (fun m pr => ufUnion m fuel pr.1 pr.2) m) fuel pr.1 =
          ufFind (l.foldl (fun m pr => ufUnion m fuel pr.1 pr.2) m) fuel pr.2 := by
  intro l
  induction l with
  | nil =>
    intro m _ _ pr hpr
    exact absurd hpr (List.not_mem_nil pr)
  | cons pr0 l ih =>
    intro m hm hf pr hpr
    simp only [List.foldl_cons, List.length_cons] at *
    obtain ⟨hg, hlen⟩ := @ufUnion_good m hm fuel pr0.1 pr0.2 (by omega)
    rcases List.mem_cons.mp hpr with rfl | hpr'
    · exact buildUFAux_eq l _ hg (by omega) (ufUnion_find_pair hm (by omega))
    · exact ih _ hg (by omega) pr hpr'

theorem buildUFAux_fuel {f1 f2 : Nat} :
    ∀ (l m : List (Nat × Nat)), GoodUF m → m.length + l.length < f1 →
      m.length + l.length < f2 →
      l.foldl (fun m pr => ufUnion m f1 pr.1 pr.2) m =
        l.foldl (fun m pr => ufUnion m f2 pr.1 pr.2) m := by
  intro l
  induction l with
  | nil =>
    intro m _ _ _
    rfl
  | cons pr l ih =>
    intro m hm h1 h2
    simp only [List.foldl_cons, List.length_cons] at *
    have hstep : ufUnion m f1 pr.1 pr.2 = ufUnion m f2 pr.1 pr.2 := by
      unfold ufUnion
      rw [ufFind_fuel_irrel hm f1 f2 pr.1 (by omega) (by omega),
        ufFind_fuel_irrel hm f1 f2 pr.2 (by omega) (by omega)]
    rw [hstep]
    obtain ⟨hg, hlen⟩ := @ufUnion_good m hm f2 pr.1 pr.2 (by omega)
    exact ih _ hg (by omega) (by omega)

theorem generationUF_eq_fold (persons : List Person) (rels : List Relationship) :
    generationUF persons rels =
      (siblingPairs persons rels).foldl
        (fun m pr => ufUnion m
          ((spousePairs persons rels ++ siblingPairs persons rels).length + 1) pr.1 pr.2)
        (spouseUF persons rels) := by
  unfold generationUF buildUF
  rw [List.foldl_append]
  have hsp : (spousePairs persons rels).foldl
      (fun m pr => ufUnion m
        ((spousePairs persons rels ++ siblingPairs persons rels).length + 1) pr.1 pr.2) [] =
      spouseUF persons rels := by
    unfold spouseUF buildUF
    refine buildUFAux_fuel _ _ GoodUF.nil ?_ ?_ <;>
      simp [List.length_append] <;> omega
  rw [hsp]

theorem spouseUF_good (persons : List Person) (rels : List Relationship) :
    GoodUF (spouseUF persons rels) ∧
    (spouseUF persons rels).length ≤ (spousePairs persons rels).length := by
  unfold spouseUF buildUF
  have := @buildUFAux_good ((spousePairs persons rels).length + 1)
    (spousePairs persons rels) [] GoodUF.nil (by simp)
  simpa using this

/-- Two persons with equal spouse roots have equal generation roots: the
generation union-find processes the same SPOUSE pairs first and then only
merges further via SIBLING pairs. -/
theorem generationRoot_of_spouseRoot (persons : List Person) (rels : List Relationship)
    {x y : Nat} (h : spouseRoot persons rels x = spouseRoot persons rels y) :
    generationRoot persons rels x = generationRoot persons rels y := by
  unfold generationRoot
  rw [generationUF_eq_fold]
  obtain ⟨hg, hlen⟩ := spouseUF_good persons rels
  refine buildUFAux_eq _ _ hg ?_ ?_
  · simp only [List.length_append]
    omega
  · unfold spouseRoot at h
    rw [ufFind_fuel_irrel hg ((spousePairs persons rels).length + 1)
        ((spousePairs persons rels ++ siblingPairs persons rels).length + 1) x
        (by omega) (by simp only [List.length_append]; omega),
      ufFind_fuel_irrel hg ((spousePairs persons rels).length + 1)
        ((spousePairs persons rels ++ siblingPairs persons rels).length + 1) y
        (by omega) (by simp only [List.length_append]; omega)] at h
    exact h

/-- A SIBLING pair of stored persons ends with equal generation roots. -/
theorem generationRoot_of_pair (persons : List Person) (rels : List Relationship)
    {pr : Nat × Nat}
    (h : pr ∈ spousePairs persons rels ++ siblingPairs persons rels) :
    generationRoot persons rels pr.1 = generationRoot persons rels pr.2 := by
  unfold generationRoot generationUF buildUF
  exact buildUFAux_pair _ _ GoodUF.nil (by simp only [List.length_nil]; omega) pr h

/-! ## Fixpoint analysis of the relaxation pass -/
theorem foldl_flag_mono {α : Type _} (f : List (Nat × Nat) × Bool → α → List (Nat × Nat) × Bool)
    (hf : ∀ x a, x.2 = true → (f x a).2 = true) :
    ∀ (l : List α) (st : List (Nat × Nat) × Bool), st.2 = true → (l.foldl f st).2 = true :=
  fun l st h => foldlInv (fun x : List (Nat × Nat) × Bool => x.2 = true) f l st
    (fun t a _ ht => hf t a ht) h

theorem levelStep_flag_mono (md : Nat) :
    ∀ (x : List (Nat × Nat) × Bool) (i : Nat), x.2 = true →
      ((if dGet x.1 i ≠ md then ((i, md) :: x.1, true) else x) : List (Nat × Nat) × Bool).2
        = true := by
  intro x i hx
  by_cases h : dGet x.1 i ≠ md
  · rw [if_pos h]
  · rw [if_neg h]; exact hx

theorem passA_flag_mono (groups : List (List Nat)) :
    ∀ st : List (Nat × Nat) × Bool, st.2 = true → (passA groups st).2 = true := by
  intro st h
  unfold passA
  refine foldl_flag_mono _ ?_ groups st h
  intro x g hx
  dsimp only
  exact foldl_flag_mono _ (levelStep_flag_mono _) g x hx

theorem passB_flag_mono (persons : List Person) (rels : List Relationship) :
    ∀ st : List (Nat × Nat) × Bool, st.2 = true → (passB persons rels st).2 = true := by
  intro st h
  unfold passB
  refine foldl_flag_mono _ ?_ (personKeys persons) st h
  intro x c hx
  dsimp only
  by_cases hps : (parentIdsByChild persons rels c).isEmpty
  · rw [if_pos hps]; exact hx
  · rw [if_neg hps]
    by_cases hlt : dGet x.1 c <
        (parentIdsByChild persons rels c).foldl (fun m p => max m (dGet x.1 p)) 0 + 1
    · rw [if_pos hlt]
    · rw [if_neg hlt]; exact hx

theorem levelFold_false (md : Nat) :
    ∀ (g : List Nat) (dm : List (Nat × Nat)),
      ((g.foldl (fun acc2 i => if dGet acc2.1 i ≠ md then ((i, md) :: acc2.1, true) else acc2)
        ((dm, false) : List (Nat × Nat) × Bool))).2 = false →
      (g.foldl (fun acc2 i => if dGet acc2.1 i ≠ md then ((i, md) :: acc2.1, true) else acc2)
        ((dm, false) : List (Nat × Nat) × Bool)).1 = dm ∧
      ∀ i ∈ g, dGet dm i = md := by
  intro g
  induction g with
  | nil =>
    intro dm _
    exact ⟨rfl, fun i hi => absurd hi (List.not_mem_nil i)⟩
  | cons i g ih =>
    intro dm hflag
    rw [List.foldl_cons] at hflag ⊢
    by_cases h : dGet dm i ≠ md
    · exfalso
      rw [if_pos h] at hflag
      have := foldl_flag_mono _ (levelStep_flag_mono md) g
        ((((i, md) :: dm, true)) : List (Nat × Nat) × Bool) rfl
      rw [this] at hflag
      cases hflag
    · rw [if_neg h] at hflag ⊢
      obtain ⟨h1, h2⟩ := ih dm hflag
      refine ⟨h1, ?_⟩
      intro j hj
      rcases List.mem_cons.mp hj with rfl | hj'
      · exact Classical.byContradiction (fun hc => h hc)
      · exact h2 j hj'

theorem passA_false (groups : List (List Nat)) :
    ∀ dm : List (Nat × Nat), (passA groups (dm, false)).2 = false →
      (passA groups (dm, false)).1 = dm ∧
      ∀ g ∈ groups, ∀ i ∈ g,
        dGet dm i = g.foldl (fun m j => max m (dGet dm j)) 0 := by
  induction groups with
  | nil =>
    intro dm _
    exact ⟨rfl, fun g hg => absurd hg (List.not_mem_nil g)⟩
  | cons g groups ih =>
    intro dm hflag
    unfold passA at hflag ⊢
    rw [List.foldl_cons] at hflag ⊢
    dsimp only at hflag ⊢
    have hone : (g.foldl
        (fun acc2 i => if dGet acc2.1 i ≠ g.foldl (fun m j => max m (dGet dm j)) 0 then
          ((i, g.foldl (fun m j => max m (dGet dm j)) 0) :: acc2.1, true) else acc2)
        ((dm, false) : List (Nat × Nat) × Bool)).2 = false := by
      by_contra hc
      have htrue : (g.foldl
          (fun acc2 i => if dGet acc2.1 i ≠ g.foldl (fun m j => max m (dGet dm j)) 0 then
            ((i, g.foldl (fun m j => max m (dGet dm j)) 0) :: acc2.1, true) else acc2)
          ((dm, false) : List (Nat × Nat) × Bool)).2 = true := by
        cases hb : (g.foldl
            (fun acc2 i => if dGet acc2.1 i ≠ g.foldl (fun m j => max m (dGet dm j)) 0 then
              ((i, g.foldl (fun m j => max m (dGet dm j)) 0) :: acc2.1, true) else acc2)
            ((dm, false) : List (Nat × Nat) × Bool)).2
        · exact absurd hb hc
        · rfl
      have := foldl_flag_mono
        (fun acc gg =>
          gg.foldl
            (fun acc2 i => if dGet acc2.1 i ≠ gg.foldl (fun m j => max m (dGet acc.1 j)) 0 then
              ((i, gg.foldl (fun m j => max m (dGet acc.1 j)) 0) :: acc2.1, true) else acc2)
            acc)
        (fun x a hx => foldl_flag_mono _ (levelStep_flag_mono _) a x hx)
        groups _ htrue
      rw [this] at hflag
      cases hflag
    obtain ⟨heq, hlev⟩ := levelFold_false _ g dm hone
    have hpair : (g.foldl
        (fun acc2 i => if dGet acc2.1 i ≠ g.foldl (fun m j => max m (dGet dm j)) 0 then
          ((i, g.foldl (fun m j => max m (dGet dm j)) 0) :: acc2.1, true) else acc2)
        ((dm, false) : List (Nat × Nat) × Bool)) = ((dm, false) : List (Nat × Nat) × Bool) :=
      Prod.ext heq hone
    rw [hpair] at hflag ⊢
    obtain ⟨h1, h2⟩ := ih dm hflag
    refine ⟨h1, ?_⟩
    intro g' hg' i hi
    rcases List.mem_cons.mp hg' with rfl | hg''
    · exact hlev i hi
    · exact h2 g' hg'' i hi

theorem passB_false (persons : List Person) (rels : List Relationship) :
    ∀ dm : List (Nat × Nat), (passB persons rels (dm, false)).2 = false →
      (passB persons rels (dm, false)).1 = dm ∧
      ∀ c ∈ personKeys persons, ¬ (parentIdsByChild persons rels c).isEmpty →
        (parentIdsByChild persons rels c).foldl (fun m p => max m (dGet dm p)) 0 + 1 ≤
          dGet dm c := by
  suffices haux : ∀ (keys : List Nat) (dm : List (Nat × Nat)),
      ((keys.foldl
        (fun acc c =>
          let ps := parentIdsByChild persons rels c
          if ps.isEmpty then acc
          else
            let maxParentDepth := ps.foldl (fun m p => max m (dGet acc.1 p)) 0
            let requiredDepth := maxParentDepth + 1
            if dGet acc.1 c < requiredDepth then ((c, requiredDepth) :: acc.1, true) else acc)
        ((dm, false) : List (Nat × Nat) × Bool))).2 = false →
      (keys.foldl
        (fun acc c =>
          let ps := parentIdsByChild persons rels c
          if ps.isEmpty then acc
          else
            let maxParentDepth := ps.foldl (fun m p => max m (dGet acc.1 p)) 0
            let requiredDepth := maxParentDepth + 1
            if dGet acc.1 c < requiredDepth then ((c, requiredDepth) :: acc.1, true) else acc)
        ((dm, false) : List (Nat × Nat) × Bool)).1 = dm ∧
      ∀ c ∈ keys, ¬ (parentIdsByChild persons rels c).isEmpty →
        (parentIdsByChild persons rels c).foldl (fun m p => max m (dGet dm p)) 0 + 1 ≤
          dGet dm c by
    intro dm h
    exact haux (personKeys persons) dm h
  intro keys
  induction keys with
  | nil =>
    intro dm _
    exact ⟨rfl, fun c hc => absurd hc (List.not_mem_nil c)⟩
  | cons c keys ih =>
    intro dm hflag
    rw [List.foldl_cons] at hflag ⊢
    dsimp only at hflag ⊢
    by_cases hps : (parentIdsByChild persons rels c).isEmpty
    · rw [if_pos hps] at hflag ⊢
      obtain ⟨h1, h2⟩ := ih dm hflag
      refine ⟨h1, ?_⟩
      intro c' hc' hne
      rcases List.mem_cons.mp hc' with rfl | hc''
      · exact absurd hps hne
      · exact h2 c' hc'' hne
    · rw [if_neg hps] at hflag ⊢
      by_cases hlt : dGet dm c <
          (parentIdsByChild persons rels c).foldl (fun m p => max m (dGet dm p)) 0 + 1
      · exfalso
        rw [if_pos hlt] at hflag
        have hmono := foldl_flag_mono
          (fun acc c =>
            let ps := parentIdsByChild persons rels c
            if ps.isEmpty then acc
            else
              let maxParentDepth := ps.foldl (fun m p => max m (dGet acc.1 p)) 0
              let requiredDepth := maxParentDepth + 1
              if dGet acc.1 c < requiredDepth then ((c, requiredDepth) :: acc.1, true)
              else acc)
          (by
            intro x a hx
            dsimp only
            by_cases h1 : (parentIdsByChild persons rels a).isEmpty
            · rw [if_pos h1]; exact hx
            · rw [if_neg h1]
              by_cases h2 : dGet x.1 a <
                  (parentIdsByChild persons rels a).foldl (fun m p => max m (dGet x.1 p)) 0 + 1
              · rw [if_pos h2]
              · rw [if_neg h2]; exact hx)
          keys
          ((((c, (parentIdsByChild persons rels c).foldl (fun m p => max m (dGet dm p)) 0 + 1)
            :: dm, true)) : List (Nat × Nat) × Bool) rfl
        rw [hmono] at hflag
        cases hflag
      · rw [if_neg hlt] at hflag ⊢
        obtain ⟨h1, h2⟩ := ih dm hflag
        refine ⟨h1, ?_⟩
        intro c' hc' hne
        rcases List.mem_cons.mp hc' with rfl | hc''
        · omega
        · exact h2 c' hc'' hne

/-- Unpacking a full-pass fixpoint: step (a) leaves every generation group
uniformly at its max, step (b) leaves every child strictly below no parent. -/
theorem relaxPass_false {persons : List Person} {rels : List Relationship}
    {dm : List (Nat × Nat)}
    (h : (relaxPass persons rels (generationGroups persons rels) dm).2 = false) :
    (∀ g ∈ generationGroups persons rels, ∀ i ∈ g,
      dGet dm i = g.foldl (fun m j => max m (dGet dm j)) 0) ∧
    (∀ c ∈ personKeys persons, ¬ (parentIdsByChild persons rels c).isEmpty →
      (parentIdsByChild persons rels c).foldl (fun m p => max m (dGet dm p)) 0 + 1 ≤
        dGet dm c) := by
  unfold relaxPass at h
  have hA2 : (passA (generationGroups persons rels) (dm, false)).2 = false := by
    by_contra hc
    have htrue : (passA (generationGroups persons rels) (dm, false)).2 = true := by
      cases hb : (passA (generationGroups persons rels) (dm, false)).2
      · exact absurd hb hc
      · rfl
    have hB := passB_flag_mono persons rels
      (passA (generationGroups persons rels) (dm, false)) htrue
    rw [hB] at h
    cases h
  obtain ⟨hA1, hlev⟩ := passA_false (generationGroups persons rels) dm hA2
  have hBin : passA (generationGroups persons rels) (dm, false) = (dm, false) :=
    Prod.ext hA1 hA2
  rw [hBin] at h
  obtain ⟨-, hraise⟩ := passB_false persons rels dm h
  exact ⟨hlev, hraise⟩

/-! ## Group membership and max-fold lemmas -/
theorem le_foldl_max_init (f : Nat → Nat) :
    ∀ (l : List Nat) (init : Nat), init ≤ l.foldl (fun m i => max m (f i)) init := by
  intro l
  induction l with
  | nil => intro init; exact Nat.le_refl init
  | cons a l ih =>
    intro init
    rw [List.foldl_cons]
    exact le_trans (Nat.le_max_left init (f a)) (ih (max init (f a)))

theorem le_foldl_max_of_mem {f : Nat → Nat} {i : Nat} :
    ∀ {l : List Nat}, i ∈ l → ∀ (init : Nat), f i ≤ l.foldl (fun m j => max m (f j)) init := by
  intro l
  induction l with
  | nil => intro h; exact absurd h (List.not_mem_nil i)
  | cons a l ih =>
    intro h init
    rw [List.foldl_cons]
    rcases List.mem_cons.mp h with rfl | h'
    · exact le_trans (Nat.le_max_right init (f i)) (le_foldl_max_init f l _)
    · exact ih h' _

theorem foldl_max_le {f : Nat → Nat} {b : Nat} :
    ∀ {l : List Nat} {init : Nat}, init ≤ b → (∀ i ∈ l, f i ≤ b) →
      l.foldl (fun m j => max m (f j)) init ≤ b := by
  intro l
  induction l with
  | nil => intro init h _; exact h
  | cons a l ih =>
    intro init hinit h
    rw [List.foldl_cons]
    refine ih (Nat.max_le.mpr ⟨hinit, h a (List.mem_cons_self a l)⟩) ?_
    intro i hi
    exact h i (List.mem_cons_of_mem a hi)

theorem foldl_links_mem {p x : Nat} :
    ∀ (l : List Relationship) (init : List Nat),
      (x ∈ init ∨ ∃ r ∈ l, (r.person1Id = p ∧ r.person2Id = x) ∨
        (r.person2Id = p ∧ r.person1Id = x)) →
      x ∈ l.foldl
        (fun acc r =>
          acc ++ (if r.person1Id = p then [r.person2Id] else []) ++
            (if r.person2Id = p then [r.person1Id] else [])) init := by
  intro l
  induction l with
  | nil =>
    intro init h
    rcases h with h | ⟨r, hr, -⟩
    · exact h
    · exact absurd hr (List.not_mem_nil r)
  | cons r0 l ih =>
    intro init h
    rw [List.foldl_cons]
    rcases h with h | ⟨r, hr, hcase⟩
    · refine ih _ (Or.inl ?_)
      simp only [List.mem_append]
      exact Or.inl (Or.inl h)
    · rcases List.mem_cons.mp hr with rfl | hr'
      · refine ih _ (Or.inl ?_)
        simp only [List.mem_append]
        rcases hcase with ⟨hp, hx⟩ | ⟨hp, hx⟩
        · exact Or.inl (Or.inr (by simp [hp, hx]))
        · exact Or.inr (by simp [hp, hx])
      · exact ih _ (Or.inr ⟨r, hr', hcase⟩)

theorem mem_linksOf_of_rel {persons : List Person} {rels : List Relationship}
    {t : RelType} {r : Relationship} (hr : r ∈ rels) (ht : r.relationshipType = t)
    (h1 : r.person1Id ∈ personIds persons) :
    r.person2Id ∈ linksOf persons rels t r.person1Id := by
  unfold linksOf
  rw [if_pos h1, mem_eraseDups]
  refine foldl_links_mem _ _ (Or.inr ⟨r, ?_, Or.inl ⟨rfl, rfl⟩⟩)
  exact List.mem_filter.mpr ⟨hr, by simp [ht]⟩

theorem pair_mem_unionPairs {persons : List Person} {rels : List Relationship}
    {t : RelType} {r : Relationship} (hr : r ∈ rels) (ht : r.relationshipType = t)
    (h1 : r.person1Id ∈ personIds persons) :
    ((r.person1Id, r.person2Id) : Nat × Nat) ∈ unionPairs persons rels t := by
  unfold unionPairs
  refine List.mem_flatMap.mpr ⟨r.person1Id, ?_, ?_⟩
  · exact mem_eraseDups.mpr h1
  · exact List.mem_map.mpr ⟨r.person2Id, mem_linksOf_of_rel hr ht h1, rfl⟩

/-- At an (a)-fixpoint, persons with equal generation roots have equal depths. -/
theorem dGet_eq_of_generationRoot {persons : List Person} {rels : List Relationship}
    {dm : List (Nat × Nat)}
    (hlev : ∀ g ∈ generationGroups persons rels, ∀ i ∈ g,
      dGet dm i = g.foldl (fun m j => max m (dGet dm j)) 0)
    {x y : Nat} (hx : x ∈ personKeys persons) (hy : y ∈ personKeys persons)
    (hroot : generationRoot persons rels x = generationRoot persons rels y) :
    dGet dm x = dGet dm y := by
  have hgmem : (personKeys persons).filter
      (fun k => generationRoot persons rels k = generationRoot persons rels x) ∈
      generationGroups persons rels := by
    unfold generationGroups groupsBy
    refine List.mem_map.mpr ⟨generationRoot persons rels x, ?_, rfl⟩
    exact mem_eraseDups.mpr (List.mem_map.mpr ⟨x, hx, rfl⟩)
  have hxg : x ∈ (personKeys persons).filter
      (fun k => generationRoot persons rels k = generationRoot persons rels x) :=
    List.mem_filter.mpr ⟨hx, by simp⟩
  have hyg : y ∈ (personKeys persons).filter
      (fun k => generationRoot persons rels k = generationRoot persons rels x) :=
    List.mem_filter.mpr ⟨hy, by simp [hroot]⟩
  rw [hlev _ hgmem x hxg, hlev _ hgmem y hyg]

/-- At an (a)-fixpoint, a person's spouse-group level is exactly its own final
depth (all cohort members share it). -/
theorem groupLevel_eq_dGet {persons : List Person} {rels : List Relationship}
    {dm : List (Nat × Nat)}
    (hlev : ∀ g ∈ generationGroups persons rels, ∀ i ∈ g,
      dGet dm i = g.foldl (fun m j => max m (dGet dm j)) 0)
    {x : Nat} (hx : x ∈ personKeys persons) :
    groupLevel dm (spouseGroupOf persons rels x) = dGet dm x := by
  apply Nat.le_antisymm
  · refine foldl_max_le (Nat.zero_le _) ?_
    intro k hk
    have hk2 := List.mem_filter.mp hk
    have hkroot : spouseRoot persons rels k = spouseRoot persons rels x := by
      simpa using hk2.2
    have := generationRoot_of_spouseRoot persons rels hkroot
    rw [dGet_eq_of_generationRoot hlev hk2.1 hx this]
  · refine le_foldl_max_of_mem ?_ 0
    exact List.mem_filter.mpr ⟨hx, by simp⟩

/-- C4 (witness): both branches of the amended theorem at the concrete store:
the creator "v" receives SelfRelationship, the stranger "u" PermissionDenied. -/
theorem C4_validation_order_amended_witness :
    createRelationship c4Db ⟨0, 0, RelType.SPOUSE⟩ "v" false =
      Except.error CreateError.selfRelationship ∧
    createRelationship c4Db ⟨0, 0, RelType.SPOUSE⟩ "u" false =
      Except.error CreateError.permissionDenied :=
  ⟨(@C4_validation_order_amended c4Db 0 ⟨0, "A", "X", "v"⟩ "v" false RelType.SPOUSE rfl).1
      (Or.inr rfl),
   (@C4_validation_order_amended c4Db 0 ⟨0, "A", "X", "v"⟩ "u" false RelType.SPOUSE rfl).2
      ⟨rfl, by decide⟩⟩

/-! ## Correctness of the collapse BFS -/
theorem mem_childSet {rels : List Relationship} {p c : Nat} :
    c ∈ childSet rels p ↔ ParentEdge rels p c := by
  unfold childSet ParentEdge
  rw [mem_eraseDups]
  constructor
  · intro h
    obtain ⟨r, hr, hc⟩ := List.mem_map.mp h
    have h2 := List.mem_filter.mp hr
    have h3 : r.relationshipType = RelType.PARENT ∧ r.person1Id = p := by
      simpa using h2.2
    exact ⟨r, h2.1, h3.1, h3.2, hc⟩
  · rintro ⟨r, hr, ht, hp, hc⟩
    exact List.mem_map.mpr ⟨r, List.mem_filter.mpr ⟨hr, by simp [ht, hp]⟩, hc⟩

theorem eraseDupsLoop_length_le {α : Type _} [BEq α] :
    ∀ (l acc : List α), (List.eraseDups.loop l acc).length ≤ acc.length + l.length := by
  intro l
  induction l with
  | nil =>
    intro acc
    simp only [List.eraseDups.loop, List.length_reverse, List.length_nil]
    omega
  | cons a as ih =>
    intro acc
    simp only [List.eraseDups.loop]
    cases he : acc.elem a with
    | true =>
      have := ih acc
      simp only [List.length_cons]
      omega
    | false =>
      have := ih (a :: acc)
      simp only [List.length_cons] at this ⊢
      omega

theorem eraseDups_length_le {α : Type _} [BEq α] (l : List α) :
    l.eraseDups.length ≤ l.length := by
  have := eraseDupsLoop_length_le l ([] : List α)
  unfold List.eraseDups
  simpa using this

theorem childSet_length_le (rels : List Relationship) (p : Nat) :
    (childSet rels p).length ≤ rels.length := by
  unfold childSet
  refine le_trans (eraseDups_length_le _) ?_
  rw [List.length_map]
  exact List.length_filter_le _ _

theorem parentEdge_mem_parentTargets {rels : List Relationship} {x c : Nat}
    (h : ParentEdge rels x c) : c ∈ parentTargets rels := by
  obtain ⟨r, hr, ht, hp, hc⟩ := h
  unfold parentTargets
  rw [List.mem_toFinset]
  exact List.mem_map.mpr ⟨r, List.mem_filter.mpr ⟨hr, by simp [ht]⟩, hc⟩

theorem parentTargets_card_le (rels : List Relationship) :
    (parentTargets rels).card ≤ rels.length := by
  unfold parentTargets
  refine le_trans (List.toFinset_card_le _) ?_
  rw [List.length_map]
  exact List.length_filter_le _ _

theorem collectLoop_cons (rels : List Relationship) (fuel : Nat) (current : Nat)
    (rest descendants : List Nat) :
    collectLoop rels (fuel + 1) (current :: rest) descendants =
      if current ∈ descendants then collectLoop rels fuel rest descendants
      else
        collectLoop rels fuel
          (rest ++ (childSet rels current).filter
            (fun c => ¬ c ∈ descendants ++ [current]))
          (descendants ++ [current]) := rfl

/-- Everything the BFS returns is reachable from the start person, provided
the queue and accumulator only hold reachable ids. -/
theorem collectLoop_sound {rels : List Relationship} {X : Nat} :
    ∀ (fuel : Nat) (queue desc : List Nat),
      (∀ q ∈ queue, Reaches rels X q) → (∀ x ∈ desc, Reaches rels X x) →
      ∀ y ∈ collectLoop rels fuel queue desc, Reaches rels X y := by
  intro fuel
  induction fuel with
  | zero =>
    intro queue desc _ hd y hy
    exact hd y hy
  | succ fuel ih =>
    intro queue desc hq hd y hy
    cases queue with
    | nil => exact hd y hy
    | cons current rest =>
      rw [collectLoop_cons] at hy
      by_cases hcur : current ∈ desc
      · rw [if_pos hcur] at hy
        exact ih rest desc (fun q hq2 => hq q (List.mem_cons_of_mem _ hq2)) hd y hy
      · rw [if_neg hcur] at hy
        refine ih _ _ ?_ ?_ y hy
        · intro q hq2
          rcases List.mem_append.mp hq2 with h | h
          · exact hq q (List.mem_cons_of_mem _ h)
          · have h2 := List.mem_filter.mp h
            exact Relation.TransGen.tail (hq current (List.mem_cons_self _ _))
              (mem_childSet.mp h2.1)
        · intro x hx
          rcases List.mem_append.mp hx with h | h
          · exact hd x h
          · have hx0 : x = current := by simpa using h
            subst hx0
            exact hq x (List.mem_cons_self _ _)

/-- Fuel adequacy and completeness for the BFS: with fuel exceeding
`|queue| + (|rels|+1)·|targets not yet collected|` the loop fully processes
both the accumulator and the queue and its output is closed under PARENT
steps. -/
theorem collectLoop_main {rels : List Relationship} :
    ∀ (fuel : Nat) (queue desc : List Nat),
      (∀ q ∈ queue, q ∈ parentTargets rels) →
      desc.Nodup →
      (∀ x ∈ desc, ∀ c, ParentEdge rels x c → c ∈ desc ∨ c ∈ queue) →
      queue.length + (rels.length + 1) * ((parentTargets rels) \ desc.toFinset).card
        < fuel →
      (∀ x ∈ desc, x ∈ collectLoop rels fuel queue desc) ∧
      (∀ q ∈ queue, q ∈ collectLoop rels fuel queue desc) ∧
      (∀ x ∈ collectLoop rels fuel queue desc, ∀ c, ParentEdge rels x c →
        c ∈ collectLoop rels fuel queue desc) := by
  intro fuel
  induction fuel with
  | zero =>
    intro queue desc _ _ _ hF
    exact absurd hF (Nat.not_lt_zero _)
  | succ fuel ih =>
    intro queue desc hqU hnd hinv hF
    cases queue with
    | nil =>
      refine ⟨fun x hx => hx, fun q hq => absurd hq (List.not_mem_nil q), ?_⟩
      intro x hx c hc
      rcases hinv x hx c hc with h | h
      · exact h
      · exact absurd h (List.not_mem_nil c)
    | cons current rest =>
      by_cases hcur : current ∈ desc
      · rw [collectLoop_cons, if_pos hcur]
        have hF2 : rest.length +
            (rels.length + 1) * ((parentTargets rels) \ desc.toFinset).card < fuel := by
          simp only [List.length_cons] at hF
          omega
        have hinv2 : ∀ x ∈ desc, ∀ c, ParentEdge rels x c → c ∈ desc ∨ c ∈ rest := by
          intro x hx c hc
          rcases hinv x hx c hc with h | h
          · exact Or.inl h
          · rcases List.mem_cons.mp h with rfl | h3
            · exact Or.inl hcur
            · exact Or.inr h3
        obtain ⟨h1, h2, h3⟩ := ih rest desc
          (fun q hq => hqU q (List.mem_cons_of_mem _ hq)) hnd hinv2 hF2
        refine ⟨h1, ?_, h3⟩
        intro q hq
        rcases List.mem_cons.mp hq with rfl | h4
        · exact h1 q hcur
        · exact h2 q h4
      · rw [collectLoop_cons, if_neg hcur]
        have hcurd : current ∈ (parentTargets rels) \ desc.toFinset := by
          rw [Finset.mem_sdiff]
          exact ⟨hqU current (List.mem_cons_self _ _),
            by simpa [List.mem_toFinset] using hcur⟩
        have hins : (desc ++ [current]).toFinset = insert current desc.toFinset := by
          ext a
          simp [List.mem_toFinset, or_comm]
        have hcard : ((parentTargets rels) \ (desc ++ [current]).toFinset).card + 1 =
            ((parentTargets rels) \ desc.toFinset).card := by
          rw [hins, Finset.sdiff_insert, Finset.card_erase_of_mem hcurd]
          have : 0 < ((parentTargets rels) \ desc.toFinset).card :=
            Finset.card_pos.mpr ⟨current, hcurd⟩
          omega
        have hq2len : (rest ++ (childSet rels current).filter
            (fun c => ¬ c ∈ desc ++ [current])).length ≤ rest.length + rels.length := by
          rw [List.length_append]
          have hfl : ((childSet rels current).filter
              (fun c => ¬ c ∈ desc ++ [current])).length ≤ rels.length :=
            le_trans (List.length_filter_le _ _) (childSet_length_le rels current)
          omega
        have hF2 : (rest ++ (childSet rels current).filter
              (fun c => ¬ c ∈ desc ++ [current])).length +
            (rels.length + 1) *
              ((parentTargets rels) \ (desc ++ [current]).toFinset).card < fuel := by
          have hmul : (rels.length + 1) * ((parentTargets rels) \ desc.toFinset).card =
              (rels.length + 1) *
                  ((parentTargets rels) \ (desc ++ [current]).toFinset).card +
                (rels.length + 1) := by
            rw [← hcard, Nat.mul_add, Nat.mul_one]
          simp only [List.length_cons] at hF
          omega
        have hnd2 : (desc ++ [current]).Nodup := by
          refine List.Nodup.append hnd (List.nodup_singleton _) ?_
          intro a ha hb
          have ha0 : a = current := by simpa using hb
          subst ha0
          exact hcur ha
        have hqU2 : ∀ q ∈ rest ++ (childSet rels current).filter
            (fun c => ¬ c ∈ desc ++ [current]), q ∈ parentTargets rels := by
          intro q hq
          rcases List.mem_append.mp hq with h | h
          · exact hqU q (List.mem_cons_of_mem _ h)
          · have h2 := List.mem_filter.mp h
            exact parentEdge_mem_parentTargets (mem_childSet.mp h2.1)
        have hinv2 : ∀ x ∈ desc ++ [current], ∀ c, ParentEdge rels x c →
            c ∈ desc ++ [current] ∨ c ∈ rest ++ (childSet rels current).filter
              (fun c => ¬ c ∈ desc ++ [current]) := by
          intro x hx c hc
          rcases List.mem_append.mp hx with h | h
          · rcases hinv x h c hc with h2 | h2
            · exact Or.inl (List.mem_append_left _ h2)
            · rcases List.mem_cons.mp h2 with rfl | h3
              · exact Or.inl (List.mem_append_right _ (List.mem_singleton_self _))
              · exact Or.inr (List.mem_append_left _ h3)
          · have hx0 : x = current := by simpa using h
            rw [hx0] at hc
            by_cases hcd : c ∈ desc ++ [current]
            · exact Or.inl hcd
            · refine Or.inr (List.mem_append_right _ ?_)
              exact List.mem_filter.mpr ⟨mem_childSet.mpr hc, by simpa using hcd⟩
        obtain ⟨h1, h2, h3⟩ := ih _ _ hqU2 hnd2 hinv2 hF2
        refine ⟨fun x hx => h1 x (List.mem_append_left _ hx), ?_, h3⟩
        intro q hq
        rcases List.mem_cons.mp hq with rfl | h4
        · exact h1 q (List.mem_append_right _ (List.mem_singleton_self _))
        · exact h2 q (List.mem_append_left _ h4)

/-- The source's fuel is adequate: `collectDescendants` swallows the whole
initial child queue and is closed under PARENT steps. -/
theorem collectDescendants_processed (rels : List Relationship) (X : Nat) :
    (∀ q ∈ childSet rels X, q ∈ collectDescendants rels X) ∧
    (∀ x ∈ collectDescendants rels X, ∀ c, ParentEdge rels x c →
      c ∈ collectDescendants rels X) := by
  have hF : (childSet rels X).length +
      (rels.length + 1) * ((parentTargets rels) \ ([] : List Nat).toFinset).card <
      (rels.length + 1) * (rels.length + 2) := by
    have h1 : (childSet rels X).length ≤ rels.length := childSet_length_le rels X
    have h2 : ((parentTargets rels) \ ([] : List Nat).toFinset).card ≤ rels.length := by
      refine le_trans (Finset.card_le_card ?_) (parentTargets_card_le rels)
      intro a ha
      exact (Finset.mem_sdiff.mp ha).1
    have h3 : (rels.length + 1) *
        ((parentTargets rels) \ ([] : List Nat).toFinset).card ≤
        (rels.length + 1) * rels.length := Nat.mul_le_mul_left _ h2
    have h4 : (rels.length + 1) * (rels.length + 2) =
        (rels.length + 1) * rels.length + 2 * rels.length + 2 := by ring
    omega
  obtain ⟨-, h2, h3⟩ := collectLoop_main ((rels.length + 1) * (rels.length + 2))
    (childSet rels X) []
    (fun q hq => parentEdge_mem_parentTargets (mem_childSet.mp hq))
    List.nodup_nil
    (fun x hx => absurd hx (List.not_mem_nil x))
    hF
  exact ⟨h2, h3⟩

/-- The BFS computes exactly the strict PARENT-descendants. -/
theorem mem_collectDescendants {rels : List Relationship} {X d : Nat} :
    d ∈ collectDescendants rels X ↔ Reaches rels X d := by
  constructor
  · intro h
    refine collectLoop_sound _ _ _ ?_ ?_ d h
    · intro q hq
      exact Relation.TransGen.single (mem_childSet.mp hq)
    · intro x hx
      exact absurd hx (List.not_mem_nil x)
  · intro h
    induction h with
    | single hb => exact (collectDescendants_processed rels X).1 _ (mem_childSet.mpr hb)
    | tail hab hbc ih => exact (collectDescendants_processed rels X).2 _ ih _ hbc

/-! ## Claim C6 -/
/-- C6: with an empty collapsed set `computeVisibleGraph` returns its inputs
unchanged (so un-collapsing X restores the original graph exactly); the
collapse BFS collects exactly the strict PARENT-descendants of X; collapsing
`{X}` keeps a stored person visible iff it is not a strict descendant of X
(so X itself, not being on a PARENT cycle, stays visible); and a stored
relationship stays visible iff both its endpoints are visible persons. -/
theorem C6_collapse_visibility {persons : List Person} {rels : List Relationship}
    {X : Nat} (hacyc : ¬ Reaches rels X X) (hX : X ∈ personIds persons) :
    computeVisibleGraph persons rels [] = (persons, rels) ∧
    (∀ d, d ∈ collectDescendants rels X ↔ Reaches rels X d) ∧
    (∀ p ∈ persons,
      (p ∈ (computeVisibleGraph persons rels [X]).1 ↔ ¬ Reaches rels X p.id)) ∧
    X ∈ personIds (computeVisibleGraph persons rels [X]).1 ∧
    (∀ r ∈ rels,
      (r ∈ (computeVisibleGraph persons rels [X]).2 ↔
        r.person1Id ∈ personIds (computeVisibleGraph persons rels [X]).1 ∧
        r.person2Id ∈ personIds (computeVisibleGraph persons rels [X]).1)) := by
  have hhid : ∀ d : Nat,
      (d ∈ (collectDescendants rels X).filter (fun e => ¬ e ∈ ([] : List Nat)) ↔
        Reaches rels X d) := by
    intro d
    rw [List.mem_filter]
    simp [mem_collectDescendants]
  have hp1 : (computeVisibleGraph persons rels [X]).1 =
      persons.filter (fun p => ¬ p.id ∈
        (collectDescendants rels X).filter (fun e => ¬ e ∈ ([] : List Nat))) := rfl
  have hmem1 : ∀ p ∈ persons,
      (p ∈ (computeVisibleGraph persons rels [X]).1 ↔ ¬ Reaches rels X p.id) := by
    intro p hp
    rw [hp1, List.mem_filter]
    constructor
    · intro h
      have h2 : ¬ p.id ∈ (collectDescendants rels X).filter
          (fun e => ¬ e ∈ ([] : List Nat)) := by simpa using h.2
      exact fun hr => h2 ((hhid p.id).mpr hr)
    · intro hnr
      refine ⟨hp, ?_⟩
      simp only [decide_eq_true_eq]
      exact fun hmem => hnr ((hhid p.id).mp hmem)
  refine ⟨rfl, fun d => mem_collectDescendants, hmem1, ?_, ?_⟩
  · obtain ⟨p, hp, hpid⟩ := List.mem_map.mp hX
    refine List.mem_map.mpr ⟨p, ?_, hpid⟩
    refine (hmem1 p hp).mpr ?_
    rw [hpid]
    exact hacyc
  · intro r hr
    have hp2 : (computeVisibleGraph persons rels [X]).2 =
        rels.filter (fun r =>
          r.person1Id ∈ personIds (computeVisibleGraph persons rels [X]).1 ∧
          r.person2Id ∈ personIds (computeVisibleGraph persons rels [X]).1) := rfl
    rw [hp2, List.mem_filter]
    simp [hr]

/-- C6 (witness): the claim theorem at the concrete store `c6Persons`/`c6Rels`
with X = P(0): P has no PARENT cycle, and collapsing P hides exactly A and B. -/
theorem C6_collapse_visibility_witness :
    (¬ Reaches c6Rels 0 0) ∧ 0 ∈ personIds c6Persons ∧
    (computeVisibleGraph c6Persons c6Rels [] = (c6Persons, c6Rels) ∧
      (∀ d, d ∈ collectDescendants c6Rels 0 ↔ Reaches c6Rels 0 d) ∧
      (∀ p ∈ c6Persons,
        (p ∈ (computeVisibleGraph c6Persons c6Rels [0]).1 ↔ ¬ Reaches c6Rels 0 p.id)) ∧
      0 ∈ personIds (computeVisibleGraph c6Persons c6Rels [0]).1 ∧
      (∀ r ∈ c6Rels,
        (r ∈ (computeVisibleGraph c6Persons c6Rels [0]).2 ↔
          r.person1Id ∈ personIds (computeVisibleGraph c6Persons c6Rels [0]).1 ∧
          r.person2Id ∈ personIds (computeVisibleGraph c6Persons c6Rels [0]).1))) := by
  have hacyc : ¬ Reaches c6Rels 0 0 := fun h =>
    absurd ((checkForCycle_iff c6Rels 0 0).mpr h) (by decide)
  exact ⟨hacyc, by decide, C6_collapse_visibility hacyc (by decide)⟩

/-! ## Claim C5 -/
/-- C5 (counterexample): in the store `c5Persons`/`c5Rels` the stored PARENT
row (A(3), D(0)) has both endpoints placed, yet the child's y-coordinate
equals the parent's (both 4080 = 17·240): the 4·N pass budget runs out before
the contradictory constraints settle, and the claimed strict ordering fails. -/
theorem C5_counterexample :
    (⟨3, 3, 0, RelType.PARENT, "u"⟩ : Relationship) ∈ c5Rels ∧
    3 ∈ personIds c5Persons ∧ 0 ∈ personIds c5Persons ∧
    hierarchyY c5Persons c5Rels 3 = hierarchyY c5Persons c5Rels 0 ∧
    ¬ hierarchyY c5Persons c5Rels 3 < hierarchyY c5Persons c5Rels 0 := by
  refine ⟨by decide, by decide, by decide, by decide, by decide⟩

/-- C5 (amended): when the relaxation loop actually converges (one more pass
reports no change), every stored PARENT row between stored persons gets the
child strictly below the parent: `y(child) > y(parent)`. -/
theorem C5_y_coordinate_amended {persons : List Person} {rels : List Relationship}
    (hfix : (relaxPass persons rels (generationGroups persons rels)
      (hierarchyDepths persons rels)).2 = false)
    {r : Relationship} (hr : r ∈ rels) (ht : r.relationshipType = RelType.PARENT)
    (h1 : r.person1Id ∈ personIds persons) (h2 : r.person2Id ∈ personIds persons) :
    hierarchyY persons rels r.person1Id < hierarchyY persons rels r.person2Id := by
  obtain ⟨hlev, hraise⟩ := relaxPass_false hfix
  have hk1 : r.person1Id ∈ personKeys persons := mem_eraseDups.mpr h1
  have hk2 : r.person2Id ∈ personKeys persons := mem_eraseDups.mpr h2
  have hpmem : r.person1Id ∈ parentIdsByChild persons rels r.person2Id := by
    unfold parentIdsByChild
    rw [if_pos h2]
    exact List.mem_map.mpr ⟨r, List.mem_filter.mpr ⟨hr, by simp [ht]⟩, rfl⟩
  have hne : (parentIdsByChild persons rels r.person2Id).isEmpty = false := by
    cases hE : parentIdsByChild persons rels r.person2Id with
    | nil =>
      rw [hE] at hpmem
      exact absurd hpmem (List.not_mem_nil _)
    | cons a l => rfl
  have hstep := hraise r.person2Id hk2 (by simp [hne])
  have hle : dGet (hierarchyDepths persons rels) r.person1Id ≤
      (parentIdsByChild persons rels r.person2Id).foldl
        (fun m p => max m (dGet (hierarchyDepths persons rels) p)) 0 :=
    le_foldl_max_of_mem hpmem 0
  have hlt : dGet (hierarchyDepths persons rels) r.person1Id <
      dGet (hierarchyDepths persons rels) r.person2Id := by omega
  unfold hierarchyY
  rw [groupLevel_eq_dGet hlev hk1, groupLevel_eq_dGet hlev hk2]
  unfold NODE_Y_SPACING
  omega

/-- C5 (witness): the amended theorem at the converging store
`c5wPersons`/`c5wRels`: PARENT(P,A) yields y(P) = 0 < 240 = y(A). -/
theorem C5_y_coordinate_amended_witness :
    (relaxPass c5wPersons c5wRels (generationGroups c5wPersons c5wRels)
      (hierarchyDepths c5wPersons c5wRels)).2 = false ∧
    hierarchyY c5wPersons c5wRels 0 < hierarchyY c5wPersons c5wRels 1 := by
  refine ⟨by decide, ?_⟩
  exact @C5_y_coordinate_amended c5wPersons c5wRels (by decide)
    ⟨0, 0, 1, RelType.PARENT, "u"⟩ (by decide) rfl (by decide) (by decide)

/-! ## Claim C8 -/
/-- C8 (counterexample): in `c8Persons`/`c8Rels` no SPOUSE row exists — every
spouse cohort is a singleton — yet the SIBLING row (A(1), B(2)) raises B's
depth from its base value 0 to A's depth 1 during leveling: SIBLING edges DO
participate in depth unification. -/
theorem C8_counterexample :
    (∀ r ∈ c8Rels, r.relationshipType ≠ RelType.SPOUSE) ∧
    (⟨1, 1, 2, RelType.SIBLING, "u"⟩ : Relationship) ∈ c8Rels ∧
    dGet (baseDepths c8Persons c8Rels) 1 = 1 ∧
    dGet (baseDepths c8Persons c8Rels) 2 = 0 ∧
    dGet (hierarchyDepths c8Persons c8Rels) 1 = 1 ∧
    dGet (hierarchyDepths c8Persons c8Rels) 2 = 1 := by
  refine ⟨by decide, by decide, by decide, by decide, by decide, by decide⟩

/-- C8 (amended): the generation union-find merges SIBLING pairs as well, so
sibling edges take part in the cohort leveling of step (a): at any converged
state, two stored persons joined by a stored SIBLING row have EQUAL final
depths — they cannot keep different depths as the spec asserts. -/
theorem C8_sibling_leveling_amended {persons : List Person} {rels : List Relationship}
    (hfix : (relaxPass persons rels (generationGroups persons rels)
      (hierarchyDepths persons rels)).2 = false)
    {r : Relationship} (hr : r ∈ rels) (ht : r.relationshipType = RelType.SIBLING)
    (h1 : r.person1Id ∈ personIds persons) (h2 : r.person2Id ∈ personIds persons) :
    dGet (hierarchyDepths persons rels) r.person1Id =
      dGet (hierarchyDepths persons rels) r.person2Id := by
  obtain ⟨hlev, -⟩ := relaxPass_false hfix
  have hpair : ((r.person1Id, r.person2Id) : Nat × Nat) ∈
      spousePairs persons rels ++ siblingPairs persons rels :=
    List.mem_append_right _ (pair_mem_unionPairs hr ht h1)
  have hroot := generationRoot_of_pair persons rels hpair
  exact dGet_eq_of_generationRoot hlev (mem_eraseDups.mpr h1)
    (mem_eraseDups.mpr h2) hroot

/-- C8 (witness): the amended theorem at the concrete store: the SIBLING row
(A(1), B(2)) of `c8Rels` forces equal converged depths. -/
theorem C8_sibling_leveling_amended_witness :
    (relaxPass c8Persons c8Rels (generationGroups c8Persons c8Rels)
      (hierarchyDepths c8Persons c8Rels)).2 = false ∧
    dGet (hierarchyDepths c8Persons c8Rels) 1 =
      dGet (hierarchyDepths c8Persons c8Rels) 2 := by
  refine ⟨by decide, ?_⟩
  exact @C8_sibling_leveling_amended c8Persons c8Rels (by decide)
    ⟨1, 1, 2, RelType.SIBLING, "u"⟩ (by decide) rfl (by decide) (by decide)

/-! ## The sibling propagation in full generality (claim C3) -/

theorem createRelationship_ok_ne {db db' : DB} {data : CreateRelationshipDto}
    {userId : String} {isAdmin : Bool} {r : Relationship}
    (hok : createRelationship db data userId isAdmin = Except.ok (db', r)) :
    data.person1Id ≠ data.person2Id := by
  unfold createRelationship at hok
  cases hp1 : findPerson db data.person1Id with
  | none => rw [hp1] at hok; cases hok
  | some person1 =>
    cases hp2 : findPerson db data.person2Id with
    | none => rw [hp1, hp2] at hok; cases hok
    | some person2 =>
      rw [hp1, hp2] at hok
      dsimp only at hok
      by_cases hperm : ¬ isAdmin ∧ person1.createdById ≠ userId ∧ person2.createdById ≠ userId
      · rw [if_pos hperm] at hok; cases hok
      · rw [if_neg hperm] at hok
        by_cases hself : data.person1Id = data.person2Id
        · rw [if_pos hself] at hok; cases hok
        · exact hself

theorem findPerson_congr {db1 db2 : DB} (h : db1.persons = db2.persons) (x : Nat) :
    findPerson db1 x = findPerson db2 x := by
  unfold findPerson
  rw [h]

/-- Appending a PARENT row that joins a different unordered pair keeps the
pair-existence query empty. -/
theorem findParentRelBetween_append_other {rels : List Relationship}
    {r : Relationship} {a b : Nat} (h : findParentRelBetween rels a b = none)
    (hne : ¬ ((r.person1Id = a ∧ r.person2Id = b) ∨
      (r.person1Id = b ∧ r.person2Id = a))) :
    findParentRelBetween (rels ++ [r]) a b = none := by
  unfold findParentRelBetween at *
  rw [List.find?_append, h]
  simp [hne]

/-- Reachability after appending one PARENT row whose child cannot reach its
parent: a path either avoids the new row or factors through it. -/
theorem reaches_append_row_cases {rels : List Relationship} {r : Relationship}
    {a b : Nat}
    (hnpc : ¬ Relation.ReflTransGen (ParentEdge rels) r.person2Id r.person1Id)
    (h : Reaches (rels ++ [r]) a b) :
    Reaches rels a b ∨
      (Relation.ReflTransGen (ParentEdge rels) a r.person1Id ∧
        Relation.ReflTransGen (ParentEdge rels) r.person2Id b) := by
  have h2 : Relation.TransGen
      (fun u v => ParentEdge rels u v ∨ (u = r.person1Id ∧ v = r.person2Id)) a b := by
    refine Relation.TransGen.mono ?_ h
    intro u v huv
    rcases parentEdge_append.mp huv with hh | hh
    · exact Or.inl hh
    · exact Or.inr ⟨hh.2.1.symm ▸ rfl, hh.2.2.symm ▸ rfl⟩
  exact transGen_insert_edge hnpc h2

/-- An `ensure` either leaves the store untouched, or — having passed its own
self, duplicate and cycle checks — appends exactly the derived PARENT row. -/
theorem createParentLinkIfMissing_cases (db : DB) (parentId childId : Nat)
    (userId : String) (isAdmin : Bool) :
    createParentLinkIfMissing db parentId childId userId isAdmin = db ∨
    (createParentLinkIfMissing db parentId childId userId isAdmin =
        (insertRel db parentId childId RelType.PARENT userId).1 ∧
      parentId ≠ childId ∧
      findParentRelBetween db.relationships parentId childId = none ∧
      ¬ Reaches db.relationships childId parentId) := by
  unfold createParentLinkIfMissing
  by_cases h1 : parentId = childId
  · exact Or.inl (if_pos h1)
  · rw [if_neg h1]
    dsimp only
    by_cases h2 : (if isAdmin then true
        else
          match findPerson db parentId, findPerson db childId with
          | some parent, some child =>
              decide (parent.createdById = userId) && decide (child.createdById = userId)
          | _, _ => false) = false
    · exact Or.inl (if_pos h2)
    · rw [if_neg h2]
      by_cases h3 : (findParentRelBetween db.relationships parentId childId).isSome = true
      · exact Or.inl (if_pos h3)
      · rw [if_neg h3]
        by_cases h4 : checkForCycle db.relationships parentId childId = true
        · exact Or.inl (if_pos h4)
        · rw [if_neg h4]
          refine Or.inr ⟨rfl, h1, ?_, ?_⟩
          · cases hfp : findParentRelBetween db.relationships parentId childId with
            | none => rfl
            | some v =>
              rw [hfp] at h3
              exact absurd rfl h3
          · exact checkForCycle_eq_false (Bool.eq_false_iff.mpr h4)

/-- An `ensure` only appends rows, so existing PARENT edges survive it. -/
theorem createParentLinkIfMissing_edge_mono {db : DB} {parentId childId x y : Nat}
    {userId : String} {isAdmin : Bool}
    (h : ParentEdge db.relationships x y) :
    ParentEdge (createParentLinkIfMissing db parentId childId userId isAdmin).relationships
      x y := by
  rcases createParentLinkIfMissing_cases db parentId childId userId isAdmin with
    he | ⟨he, -, -, -⟩
  · rw [he]
    exact h
  · rw [he]
    show ParentEdge
      (db.relationships ++ [⟨db.relCounter, parentId, childId, RelType.PARENT, userId⟩]) x y
    exact parentEdge_append.mpr (Or.inl h)

/-- One `ensure` call of the sibling propagation — deriving a link into A or
into B, for an arbitrary parent id — preserves the propagation invariant; in
particular the (P,B) ensure itself can only move the invariant into its
already-created branch. -/
theorem ensure_halfstep_inv {dbo : DB} {A B P : Nat} {userId : String} {isAdmin : Bool}
    (hPA : P ≠ A) (hPB : P ≠ B) (hAB : A ≠ B)
    {acc : DB} (hinv : EnsureInv dbo A B P acc) (q X : Nat) (hX : X = A ∨ X = B) :
    EnsureInv dbo A B P (createParentLinkIfMissing acc q X userId isAdmin) := by
  unfold EnsureInv at hinv ⊢
  obtain ⟨hps, hrest⟩ := hinv
  rcases createParentLinkIfMissing_cases acc q X userId isAdmin with
    he | ⟨he, hqX, hnofd, hnr⟩
  · rw [he]
    exact ⟨hps, hrest⟩
  · rw [he]
    refine ⟨hps, ?_⟩
    rcases hrest with hedge | ⟨hfd, hBP, hAP⟩
    · exact Or.inl (show ParentEdge
        (acc.relationships ++ [⟨acc.relCounter, q, X, RelType.PARENT, userId⟩]) P B from
        parentEdge_append.mpr (Or.inl hedge))
    · by_cases hcreate : q = P ∧ X = B
      · exact Or.inl (show ParentEdge
          (acc.relationships ++ [⟨acc.relCounter, q, X, RelType.PARENT, userId⟩]) P B from
          parentEdge_append.mpr (Or.inr ⟨rfl, hcreate.1, hcreate.2⟩))
      · have hXq : ¬ Relation.ReflTransGen (ParentEdge acc.relationships) X q := by
          intro hrtg
          rcases Relation.reflTransGen_iff_eq_or_transGen.mp hrtg with heq | htg
          · exact hqX heq
          · exact hnr htg
        have hXPrefl : ¬ Relation.ReflTransGen (ParentEdge acc.relationships) X P := by
          intro hrtg
          rcases Relation.reflTransGen_iff_eq_or_transGen.mp hrtg with heq | htg
          · rcases hX with rfl | rfl
            · exact hPA heq
            · exact hPB heq
          · rcases hX with rfl | rfl
            · exact hAP htg
            · exact hBP htg
        refine Or.inr ⟨?_, ?_, ?_⟩
        · show findParentRelBetween
            (acc.relationships ++ [⟨acc.relCounter, q, X, RelType.PARENT, userId⟩]) P B = none
          refine findParentRelBetween_append_other hfd ?_
          rintro (⟨hq1, hq2⟩ | ⟨hq1, hq2⟩)
          · exact hcreate ⟨hq1, hq2⟩
          · rcases hX with rfl | rfl
            · exact hPA hq2.symm
            · exact hPB hq2.symm
        · show ¬ Reaches
            (acc.relationships ++ [⟨acc.relCounter, q, X, RelType.PARENT, userId⟩]) B P
          intro hreach
          rcases reaches_append_row_cases hXq hreach with hold | ⟨-, h2⟩
          · exact hBP hold
          · exact hXPrefl h2
        · show ¬ Reaches
            (acc.relationships ++ [⟨acc.relCounter, q, X, RelType.PARENT, userId⟩]) A P
          intro hreach
          rcases reaches_append_row_cases hXq hreach with hold | ⟨-, h2⟩
          · exact hAP hold
          · exact hXPrefl h2

/-- The sibling propagation fold preserves the invariant over any parent list. -/
theorem ensure_fold_inv {dbo : DB} {A B P : Nat} {userId : String} {isAdmin : Bool}
    (hPA : P ≠ A) (hPB : P ≠ B) (hAB : A ≠ B) :
    ∀ (L : List Nat) (acc : DB), EnsureInv dbo A B P acc →
      EnsureInv dbo A B P (L.foldl
        (fun acc parentId =>
          createParentLinkIfMissing
            (createParentLinkIfMissing acc parentId A userId isAdmin)
            parentId B userId isAdmin) acc) := by
  intro L
  induction L with
  | nil =>
    intro acc h
    exact h
  | cons q L ih =>
    intro acc h
    rw [List.foldl_cons]
    exact ih _ (ensure_halfstep_inv hPA hPB hAB
      (ensure_halfstep_inv hPA hPB hAB h q A (Or.inl rfl)) q B (Or.inr rfl))

/-- Once the derived PARENT(P,B) row exists, the rest of the propagation fold
keeps it. -/
theorem ensure_fold_edge {A B P : Nat} {userId : String} {isAdmin : Bool} :
    ∀ (L : List Nat) (acc : DB), ParentEdge acc.relationships P B →
      ParentEdge ((L.foldl
        (fun acc parentId =>
          createParentLinkIfMissing
            (createParentLinkIfMissing acc parentId A userId isAdmin)
            parentId B userId isAdmin) acc)).relationships P B := by
  intro L
  induction L with
  | nil =>
    intro acc h
    exact h
  | cons q L ih =>
    intro acc h
    rw [List.foldl_cons]
    exact ih _ (createParentLinkIfMissing_edge_mono (createParentLinkIfMissing_edge_mono h))

/-- When the invariant's checks still hold, the (P,B) `ensure` creates the
derived row. -/
theorem ensure_creates_of_inv {dbo : DB} {B P : Nat} {userId : String} {isAdmin : Bool}
    (hPB : P ≠ B)
    (hperm : isAdmin = true ∨
      ((∃ pP, findPerson dbo P = some pP ∧ pP.createdById = userId) ∧
       (∃ pB, findPerson dbo B = some pB ∧ pB.createdById = userId)))
    {acc1 : DB} (hps1 : acc1.persons = dbo.persons)
    (hfd : findParentRelBetween acc1.relationships P B = none)
    (hBP : ¬ Reaches acc1.relationships B P) :
    ParentEdge (createParentLinkIfMissing acc1 P B userId isAdmin).relationships P B := by
  unfold createParentLinkIfMissing
  rw [if_neg hPB]
  dsimp only
  have hpermval : (if isAdmin then true
      else
        match findPerson acc1 P, findPerson acc1 B with
        | some parent, some child =>
            decide (parent.createdById = userId) && decide (child.createdById = userId)
        | _, _ => false) = true := by
    rcases hperm with hadm | ⟨⟨pP, hpP, hpPc⟩, ⟨pB, hpBf, hpBc⟩⟩
    · rw [hadm]
      rfl
    · cases hisadm : isAdmin
      · rw [if_neg (by simp), findPerson_congr hps1 P, findPerson_congr hps1 B, hpP, hpBf]
        simp [hpPc, hpBc]
      · rw [if_pos rfl]
  rw [if_neg (by rw [hpermval]; intro h; cases h)]
  rw [if_neg (by rw [hfd]; intro h; cases h)]
  have hnc : ¬ (checkForCycle acc1.relationships P B = true) := by
    intro hc
    exact hBP ((checkForCycle_iff _ _ _).mp hc)
  rw [if_neg hnc]
  show ParentEdge (acc1.relationships ++ [⟨acc1.relCounter, P, B, RelType.PARENT, userId⟩]) P B
  exact parentEdge_append.mpr (Or.inr ⟨rfl, rfl, rfl⟩)

/-- Processing parent P's own fold step from any invariant state leaves the
derived PARENT(P,B) row in the store. -/
theorem ensure_step_creates {dbo : DB} {A B P : Nat} {userId : String} {isAdmin : Bool}
    (hPA : P ≠ A) (hPB : P ≠ B) (hAB : A ≠ B)
    (hperm : isAdmin = true ∨
      ((∃ pP, findPerson dbo P = some pP ∧ pP.createdById = userId) ∧
       (∃ pB, findPerson dbo B = some pB ∧ pB.createdById = userId)))
    {acc : DB} (hinv : EnsureInv dbo A B P acc) :
    ParentEdge (createParentLinkIfMissing
      (createParentLinkIfMissing acc P A userId isAdmin) P B userId isAdmin).relationships
      P B := by
  have hinv1 := @ensure_halfstep_inv dbo A B P userId isAdmin hPA hPB hAB acc hinv P A
    (Or.inl rfl)
  obtain ⟨hps1, hrest1⟩ := hinv1
  rcases hrest1 with hedge | ⟨hfd, hBP, hAP⟩
  · exact createParentLinkIfMissing_edge_mono hedge
  · exact ensure_creates_of_inv hPB hperm hps1 hfd hBP

/-- C3 (amended): on an acyclic store, after a successful SIBLING(A,B)
creation, EVERY pre-existing parent P of A — however many parents A or B have —
gets the derived edge PARENT(P,B) afterwards PROVIDED the ensure's own checks
pass: P ≠ B, the actor is admin or created BOTH P and B (not merely one of the
two), no PARENT row between P and B pre-exists in either direction, and the
link passes the cycle check; a derived edge failing any of these checks is
silently skipped while the primary SIBLING row stays committed (the
counterexample). -/
theorem C3_sibling_propagation_amended {db db' : DB} {A B P : Nat}
    {rel : Relationship} {userId : String} {isAdmin : Bool}
    (hsucc : createRelationship db ⟨A, B, RelType.SIBLING⟩ userId isAdmin =
      Except.ok (db', rel))
    (hP : ParentEdge db.relationships P A)
    (hacyc : AcyclicParent db.relationships)
    (hPB : P ≠ B)
    (hperm : isAdmin = true ∨
      ((∃ pP, findPerson db P = some pP ∧ pP.createdById = userId) ∧
       (∃ pB, findPerson db B = some pB ∧ pB.createdById = userId)))
    (hnoPB : findParentRelBetween db.relationships P B = none)
    (hnocyc : checkForCycle db.relationships P B = false) :
    ParentEdge db'.relationships P B := by
  have hPA : P ≠ A := by
    intro h
    exact hacyc A (Relation.TransGen.single (h ▸ hP))
  have hAP : ¬ Reaches db.relationships A P := by
    intro hr
    exact hacyc A (Relation.TransGen.trans hr (Relation.TransGen.single hP))
  have hBP : ¬ Reaches db.relationships B P := checkForCycle_eq_false hnocyc
  have hAB : A ≠ B := createRelationship_ok_ne hsucc
  obtain ⟨hdb', -⟩ := createRelationship_ok_inv hsucc
  subst hdb'
  unfold propagateRel
  dsimp only
  have hrels1 : ((insertRel db A B RelType.SIBLING userId).1).relationships =
      db.relationships ++ [⟨db.relCounter, A, B, RelType.SIBLING, userId⟩] := rfl
  have hinv0 : EnsureInv db A B P (insertRel db A B RelType.SIBLING userId).1 := by
    unfold EnsureInv
    refine ⟨rfl, Or.inr ⟨?_, ?_, ?_⟩⟩
    · rw [hrels1]
      exact findParentRelBetween_append_nonparent (fun h => RelType.noConfusion h) hnoPB
    · rw [hrels1, reaches_append_nonparent (fun h => RelType.noConfusion h)]
      exact hBP
    · rw [hrels1, reaches_append_nonparent (fun h => RelType.noConfusion h)]
      exact hAP
  have hPmem : P ∈ (getParentIds ((insertRel db A B RelType.SIBLING userId).1).relationships A
      ++ getParentIds ((insertRel db A B RelType.SIBLING userId).1).relationships B).eraseDups := by
    rw [mem_eraseDups]
    refine List.mem_append.mpr (Or.inl ?_)
    rw [hrels1, getParentIds_append_nonparent (fun h => RelType.noConfusion h)]
    exact mem_getParentIds_iff.mpr hP
  obtain ⟨L1, L2, hsplit⟩ := List.append_of_mem hPmem
  rw [hsplit, List.foldl_append, List.foldl_cons]
  exact ensure_fold_edge L2 _
    (ensure_step_creates hPA hPB hAB hperm (ensure_fold_inv hPA hPB hAB L1 _ hinv0))

/-- C3 (witness): the amended theorem applied to the store where the non-admin
actor created P, A and B and PARENT(P,A) is the only row; the derived
PARENT(P,B) is indeed created. -/
theorem C3_sibling_propagation_amended_witness : ParentEdge c3wDb'.relationships 0 2 :=
  @C3_sibling_propagation_amended c3wDb c3wDb' 1 2 0 c3wRel' "u" false
    rfl (by decide)
    (@acyclic_append_parent [] ⟨0, 0, 1, RelType.PARENT, "u"⟩ acyclicParent_nil
      (by decide) (fun h => transGen_parentEdge_nil h))
    (by decide)
    (Or.inr ⟨⟨⟨0, "P", "X", "u"⟩, rfl, rfl⟩, ⟨⟨2, "B", "X", "u"⟩, rfl, rfl⟩⟩) rfl rfl

end FamilyTree
